import Mathlib

/-!
Verification of the CanvasPal chat orchestration route
(`src/app/api/chat/route.ts`, plan/execute/summarize variant) and the
client chat renderer (`src/components/ChatMessage.tsx`).

Strings are modelled as `List Char`.  The language-model backend and the
Python tool subprocess are external collaborators; they are modelled as
oracles indexed by call order (`llm : Nat → List Char` gives the n-th model
response text, `toolExec : Nat → Except (List Char) (List Char)` gives the
n-th tool invocation outcome: `.error` models the subprocess raising,
`.ok raw` models it returning stdout `raw`).  The prompt strings that are
sent alongside the history are built from fixed templates and do not
influence any modelled behaviour, so they are not reconstructed; the
history argument of every model call is modelled faithfully.  JSON parsing
and serialisation (`JSON.parse` / `JSON.stringify`) are modelled by an
executable JSON value type with a fuelled recursive-descent parser.
-/

namespace CanvasPal

/-- Left brace character, written via its code point. -/
def lbrace : Char := Char.ofNat 123

/-- Right brace character, written via its code point. -/
def rbrace : Char := Char.ofNat 125

/-- Whitespace as recognised by JavaScript `String.prototype.trim`
(the ASCII part plus NBSP; the exotic Unicode spaces never occur here). -/
def isWsChar (c : Char) : Bool :=
  c = ' ' || c = '\n' || c = '\t' || c = '\r' || c = '\x0b' || c = '\x0c' || c = ' '

/-- JS `s.trim()`. -/
def jsTrim (s : List Char) : List Char :=
  ((s.dropWhile isWsChar).reverse.dropWhile isWsChar).reverse

/-- Opening sentinel marker of a hidden context block. -/
def openMark : List Char := "<!--CONTEXT".toList

/-- Closing sentinel marker of a hidden context block. -/
def closeMark : List Char := "CONTEXT-->".toList

/-- Does `pat` occur at the very start of `s`? -/
def hasLead : List Char → List Char → Bool
  | [], _ => true
  | _ :: _, [] => false
  | p :: ps, c :: cs => p = c && hasLead ps cs

/-- Index of the first occurrence of `pat` in `s` (leftmost match, as a lazy
regex quantifier finds it), or `none`. -/
def findSub (pat : List Char) : List Char → Option Nat
  | [] => if hasLead pat [] then some 0 else none
  | c :: rest =>
    if hasLead pat (c :: rest) then some 0
    else (findSub pat rest).map (· + 1)

/-- Fuelled scanner for the global regex replace
`s.replace(/<!--CONTEXT[\s\S]*?CONTEXT-->/g, '')`: at each position, if the
opening marker matches and a closing marker occurs later, the shortest such
block is deleted and scanning resumes after it; otherwise the character is
kept and scanning advances one position. -/
def stripGo : Nat → List Char → List Char
  | 0, s => s
  | fuel + 1, [] =>
    -- fuel is unused on the empty string
    (fun _ => []) fuel
  | fuel + 1, c :: rest =>
    if hasLead openMark (c :: rest) then
      match findSub closeMark ((c :: rest).drop openMark.length) with
      | some j => stripGo fuel ((c :: rest).drop (openMark.length + j + closeMark.length))
      | none => c :: stripGo fuel rest
    else c :: stripGo fuel rest

/-- `stripContext` from the route (and the identical `stripCtx` of the
sibling route files): removes every non-greedy `<!--CONTEXT ... CONTEXT-->`
block. -/
def stripContext (s : List Char) : List Char := stripGo s.length s

/-- Alias used by the other route variants and the client renderer
(the source repeats the same one-line regex helper verbatim). -/
def stripCtx : List Char → List Char := stripContext

/-- JS `s.slice(a, b)` where `a` may be negative (counted from the end)
and `b` is a non-negative end index. -/
def jsSlice (s : List Char) (a : Int) (b : Nat) : List Char :=
  (s.take b).drop (if a < 0 then (s.length + a).toNat else a.toNat)

/-- Loop body of `firstObject` (route lines 516-528): left-to-right scan
tracking brace depth; `start` is the index of the `\x7b` seen at depth 0
(or `-1`); on a `\x7d` that brings the depth back to 0 with `start ≥ 0`
the slice from `start` through this character is returned. -/
def firstObjectGo (s : List Char) : List Char → Nat → Int → Int → Option (List Char)
  | [], _, _, _ => none
  | c :: rest, i, depth, start =>
    if c = lbrace then
      firstObjectGo s rest (i + 1) (depth + 1) (if depth = 0 then (i : Int) else start)
    else if c = rbrace then
      if depth - 1 = 0 ∧ 0 ≤ start then some (jsSlice s start (i + 1))
      else firstObjectGo s rest (i + 1) (depth - 1) start
    else firstObjectGo s rest (i + 1) depth start

/-- `firstObject` from the route: first balanced brace-delimited substring. -/
def firstObject (s : List Char) : Option (List Char) :=
  firstObjectGo s s 0 0 (-1)

/-- Loop body of `firstJson` (route lines 164-173 of the sibling variant):
same scan, but the return condition is `--depth === 0` with no guard on
`start`. -/
def firstJsonGo (s : List Char) : List Char → Nat → Int → Int → Option (List Char)
  | [], _, _, _ => none
  | c :: rest, i, depth, start =>
    if c = lbrace then
      firstJsonGo s rest (i + 1) (depth + 1) (if depth = 0 then (i : Int) else start)
    else if c = rbrace then
      if depth - 1 = 0 then some (jsSlice s start (i + 1))
      else firstJsonGo s rest (i + 1) (depth - 1) start
    else firstJsonGo s rest (i + 1) depth start

/-- `firstJson` from the sibling route variant. -/
def firstJson (s : List Char) : Option (List Char) :=
  firstJsonGo s s 0 0 (-1)

/-- Depth contribution of one character: `\x7b` opens, `\x7d` closes. -/
def braceDelta (c : Char) : Int :=
  if c = lbrace then 1 else if c = rbrace then -1 else 0

/-- Net brace depth of a string. -/
def depthOf (l : List Char) : Int := (l.map braceDelta).sum

/-- Modelled from the spec: `closesB d body` holds when, starting at
positive depth `d`, the depth stays strictly positive until the final
character of `body`, where it reaches exactly 0 (so `body` ends the object
opened before it). -/
def closesB : Int → List Char → Bool
  | d, [] => d = 0
  | d, c :: rest => 0 < d && closesB (d + braceDelta c) rest

/-- Modelled from the spec: a balanced brace-delimited object in the sense
of the extractor contract (starts with `\x7b`, depth strictly positive
inside, returns to 0 exactly at the final character). -/
def isBalObj : List Char → Bool
  | [] => false
  | c :: body => c = lbrace && closesB 1 body

/-- Modelled from the spec: a string with no brace characters at all. -/
def braceFree (l : List Char) : Bool :=
  l.all fun c => c ≠ lbrace && c ≠ rbrace

/-- Modelled from the spec: a string whose braces are all balanced (depth
never negative and zero at the end) — the reading of the claim hypothesis
"contains no unbalanced braces". -/
def balB : Int → List Char → Bool
  | d, [] => d = 0
  | d, c :: rest => 0 ≤ d + braceDelta c && balB (d + braceDelta c) rest

/-- Modelled from the spec, top-level form of `balB`. -/
def braceBalanced (l : List Char) : Bool := balB 0 l

/-! ### JSON values

The route relies on the host `JSON.parse` / `JSON.stringify`.  They are
modelled by an explicit JSON value type with an executable parser and
serialiser.  Numbers keep their raw literal text (no floating point is
needed anywhere in the route's logic). -/

/-- A JSON value as produced by `JSON.parse`. -/
inductive Json where
  | null
  | bool (b : Bool)
  | num (raw : List Char)
  | str (s : List Char)
  | arr (xs : List Json)
  | obj (fields : List (List Char × Json))

/-- JSON insignificant whitespace. -/
def skipWs (s : List Char) : List Char :=
  s.dropWhile fun c => c = ' ' || c = '\n' || c = '\t' || c = '\r'

/-- Hex digit value. -/
def hexVal (c : Char) : Option Nat :=
  if '0' ≤ c ∧ c ≤ '9' then some (c.toNat - '0'.toNat)
  else if 'a' ≤ c ∧ c ≤ 'f' then some (c.toNat - 'a'.toNat + 10)
  else if 'A' ≤ c ∧ c ≤ 'F' then some (c.toNat - 'A'.toNat + 10)
  else none

/-- Body of a JSON string literal (after the opening quote): returns the
decoded characters and the remainder after the closing quote. -/
def parseStrBody : List Char → Option (List Char × List Char)
  | [] => none
  | '"' :: r => some ([], r)
  | '\\' :: e :: r =>
    match e with
    | '"' => (parseStrBody r).map fun p => ('"' :: p.1, p.2)
    | '\\' => (parseStrBody r).map fun p => ('\\' :: p.1, p.2)
    | '/' => (parseStrBody r).map fun p => ('/' :: p.1, p.2)
    | 'b' => (parseStrBody r).map fun p => ('\x08' :: p.1, p.2)
    | 'f' => (parseStrBody r).map fun p => ('\x0c' :: p.1, p.2)
    | 'n' => (parseStrBody r).map fun p => ('\n' :: p.1, p.2)
    | 'r' => (parseStrBody r).map fun p => ('\r' :: p.1, p.2)
    | 't' => (parseStrBody r).map fun p => ('\t' :: p.1, p.2)
    | 'u' =>
      match r with
      | h1 :: h2 :: h3 :: h4 :: r2 =>
        match hexVal h1, hexVal h2, hexVal h3, hexVal h4 with
        | some a, some b, some c, some d =>
          (parseStrBody r2).map fun p =>
            (Char.ofNat (((a * 16 + b) * 16 + c) * 16 + d) :: p.1, p.2)
        | _, _, _, _ => none
      | _ => none
    | _ => none
  | c :: r =>
    if c.toNat < 32 then none
    else (parseStrBody r).map fun p => (c :: p.1, p.2)

/-- Optional fraction part of a JSON number. -/
def parseFrac : List Char → Option (List Char × List Char)
  | '.' :: r =>
    match r.span Char.isDigit with
    | ([], _) => none
    | (ds, r2) => some ('.' :: ds, r2)
  | s => some ([], s)

/-- Optional exponent part of a JSON number. -/
def parseExp : List Char → Option (List Char × List Char)
  | c :: r =>
    if c = 'e' || c = 'E' then
      match (match r with
             | x :: r2 => if x = '+' || x = '-' then ([x], r2) else (([] : List Char), r)
             | [] => ([], r)) with
      | (sgn, r2) =>
        match r2.span Char.isDigit with
        | ([], _) => none
        | (ds, r3) => some (c :: (sgn ++ ds), r3)
    else some ([], c :: r)
  | [] => some ([], [])

/-- A JSON number literal: sign, integer part (no leading zero), fraction,
exponent; returns the raw literal and the remainder. -/
def parseNum (s : List Char) : Option (List Char × List Char) :=
  match (match s with
         | '-' :: r => (['-'], r)
         | _ => (([] : List Char), s)) with
  | (sign, s1) =>
    match s1.span Char.isDigit with
    | ([], _) => none
    | (ds, s2) =>
      if ds.head? = some '0' ∧ ds.length > 1 then none
      else
        match parseFrac s2 with
        | none => none
        | some (fr, s3) =>
          match parseExp s3 with
          | none => none
          | some (ex, s4) => some (sign ++ ds ++ fr ++ ex, s4)

mutual

/-- Fuelled recursive-descent JSON value parser. -/
def parseVal : Nat → List Char → Option (Json × List Char)
  | 0, _ => none
  | fuel + 1, s =>
    match skipWs s with
    | 'n' :: 'u' :: 'l' :: 'l' :: rest => some (.null, rest)
    | 't' :: 'r' :: 'u' :: 'e' :: rest => some (.bool true, rest)
    | 'f' :: 'a' :: 'l' :: 's' :: 'e' :: rest => some (.bool false, rest)
    | '"' :: rest => (parseStrBody rest).map fun p => (.str p.1, p.2)
    | '[' :: rest =>
      match skipWs rest with
      | ']' :: r2 => some (.arr [], r2)
      | r2 => (parseArrItems fuel r2).map fun p => (.arr p.1, p.2)
    | '\x7b' :: rest =>
      match skipWs rest with
      | '\x7d' :: r2 => some (.obj [], r2)
      | r2 => (parseObjItems fuel r2).map fun p => (.obj p.1, p.2)
    | c :: rest =>
      if c = '-' || c.isDigit then
        (parseNum (c :: rest)).map fun p => (.num p.1, p.2)
      else none
    | [] => none

/-- Comma-separated JSON array items up to the closing bracket. -/
def parseArrItems : Nat → List Char → Option (List Json × List Char)
  | 0, _ => none
  | fuel + 1, s =>
    match parseVal fuel s with
    | none => none
    | some (v, r) =>
      match skipWs r with
      | ',' :: r2 => (parseArrItems fuel r2).map fun p => (v :: p.1, p.2)
      | ']' :: r2 => some ([v], r2)
      | _ => none

/-- Comma-separated JSON object members up to the closing brace. -/
def parseObjItems : Nat → List Char → Option (List (List Char × Json) × List Char)
  | 0, _ => none
  | fuel + 1, s =>
    match skipWs s with
    | '"' :: r =>
      match parseStrBody r with
      | none => none
      | some (key, r2) =>
        match skipWs r2 with
        | ':' :: r3 =>
          match parseVal fuel r3 with
          | none => none
          | some (v, r4) =>
            match skipWs r4 with
            | ',' :: r5 => (parseObjItems fuel r5).map fun p => ((key, v) :: p.1, p.2)
            | '\x7d' :: r5 => some ([(key, v)], r5)
            | _ => none
        | _ => none
    | _ => none

end

/-- `JSON.parse`: the whole input (up to trailing whitespace) must be one
value; returns `none` where the host function would throw. -/
def jsonParse (s : List Char) : Option Json :=
  match parseVal (s.length + 1) s with
  | some (v, rest) => if skipWs rest = [] then some v else none
  | none => none

/-- JSON string-literal escaping of one character, as `JSON.stringify`
performs it. -/
def escChar (c : Char) : List Char :=
  if c = '"' then ['\\', '"']
  else if c = '\\' then ['\\', '\\']
  else if c = '\x08' then ['\\', 'b']
  else if c = '\x0c' then ['\\', 'f']
  else if c = '\n' then ['\\', 'n']
  else if c = '\r' then ['\\', 'r']
  else if c = '\t' then ['\\', 't']
  else if c.toNat < 32 then
    '\\' :: 'u' :: '0' :: '0' ::
      [(Nat.digitChar (c.toNat / 16)), (Nat.digitChar (c.toNat % 16))]
  else [c]

/-- A JSON string literal for `s`. -/
def strLit (s : List Char) : List Char :=
  '"' :: (s.map escChar).flatten ++ ['"']

/-- Comma-join. -/
def commaJoin : List (List Char) → List Char
  | [] => []
  | [x] => x
  | x :: rest => x ++ ',' :: commaJoin rest

mutual

/-- `JSON.stringify` of one value. -/
def jsonStringify : Json → List Char
  | .null => "null".toList
  | .bool b => if b then "true".toList else "false".toList
  | .num raw => raw
  | .str s => strLit s
  | .arr xs => '[' :: stringifyItems xs ++ [']']
  | .obj fs => '\x7b' :: stringifyMembers fs ++ ['\x7d']

/-- Serialised array items, comma separated. -/
def stringifyItems : List Json → List Char
  | [] => []
  | [x] => jsonStringify x
  | x :: rest => jsonStringify x ++ ',' :: stringifyItems rest

/-- Serialised object members, comma separated. -/
def stringifyMembers : List (List Char × Json) → List Char
  | [] => []
  | [kv] => strLit kv.1 ++ ':' :: jsonStringify kv.2
  | kv :: rest => strLit kv.1 ++ ':' :: jsonStringify kv.2 ++ ',' :: stringifyMembers rest

end

/-- Is a JSON number literal the number zero (all mantissa digits `0`)? -/
def numIsZero (raw : List Char) : Bool :=
  (raw.takeWhile fun c => c ≠ 'e' ∧ c ≠ 'E').all fun c => !c.isDigit || c = '0'

/-- JavaScript truthiness of a JSON value. -/
def jsTruthy : Json → Bool
  | .null => false
  | .bool b => b
  | .num raw => !numIsZero raw
  | .str s => !s.isEmpty
  | .arr _ => true
  | .obj _ => true

/-- JavaScript truthiness of a possibly-absent (`undefined`) property. -/
def jsTruthyOpt : Option Json → Bool
  | none => false
  | some v => jsTruthy v

/-- Property access `j[key]`: `undefined` (`none`) on a non-object or a
missing key; with duplicate keys `JSON.parse` keeps the last one. -/
def getField (j : Json) (key : List Char) : Option Json :=
  match j with
  | .obj fs => (fs.reverse.find? fun kv => kv.1 == key).map (·.2)
  | _ => none

/-- The JS `x ?? dflt` operator applied to a possibly-absent property. -/
def nullishDefault (o : Option Json) (dflt : Json) : Json :=
  match o with
  | none => dflt
  | some .null => dflt
  | some v => v

mutual

/-- JS `String(·)` conversion (template-literal interpolation). -/
def jsStringOf : Json → List Char
  | .null => "null".toList
  | .bool b => if b then "true".toList else "false".toList
  | .num raw => raw
  | .str s => s
  | .arr xs => jsStringOfItems xs
  | .obj _ => "[object Object]".toList

/-- JS array `toString`: comma-joined element conversions. -/
def jsStringOfItems : List Json → List Char
  | [] => []
  | [x] => jsStringOf x
  | x :: rest => jsStringOf x ++ ',' :: jsStringOfItems rest

end

/-! ### Conversation messages and history preparation -/

/-- Message role. -/
inductive Role where
  | user
  | assistant
  | system
deriving DecidableEq, Repr

/-- `Msg` from the route: one conversation message. -/
structure Msg where
  role : Role
  content : List Char
deriving DecidableEq, Repr

/-- The sanitised history `history.map(m => ({role, content: stripContext(content)}))`
built inside `getPlan` and `execStep`. -/
def cleanMsgs (ms : List Msg) : List Msg :=
  ms.map fun m => ⟨m.role, stripContext m.content⟩

/-- `MAX_HISTORY` from the streaming-summary route variant. -/
def MAX_HISTORY : Nat := 10

/-- History preparation of the streaming-summary route variant:
`messages.slice(-MAX_HISTORY).map(m => ({role, content: stripCtx(m.content)}))`. -/
def prepareHistory (ms : List Msg) : List Msg :=
  (ms.drop (ms.length - MAX_HISTORY)).map fun m => ⟨m.role, stripCtx m.content⟩

/-! ### Plan parsing, step parsing, tool adapter -/

/-- Result of `getPlan`: either a non-empty `steps` array or a direct
free-text answer (exactly one of the two is set in the source). -/
inductive PlanResult where
  | steps (xs : List Json)
  | direct (d : List Char)

/-- The response-processing part of `getPlan` (route lines 581-596): extract
the first JSON object; if it parses and its `steps` property is a non-empty
array, return the steps; otherwise return the sanitised, trimmed raw text as
a direct answer. -/
def getPlanParse (planTxt : List Char) : PlanResult :=
  match firstObject planTxt with
  | some objStr =>
    match jsonParse objStr with
    | some obj =>
      match getField obj "steps".toList with
      | some (.arr xs) =>
        if xs.length ≠ 0 then .steps xs
        else .direct (jsTrim (stripContext planTxt))
      | _ => .direct (jsTrim (stripContext planTxt))
    | none => .direct (jsTrim (stripContext planTxt))
  | none => .direct (jsTrim (stripContext planTxt))

/-- The prose fallback of `execStep`: wrap the sanitised, trimmed raw text
as a finalized result. -/
def fallbackExec (raw : List Char) : Json :=
  .obj [("result".toList, .str (jsTrim (stripContext raw))), ("done".toList, .bool true)]

/-- The response-processing part of `execStep` (route lines 603-631):
extract the first JSON object and parse it; on any failure fall back to
wrapping the prose as `{result, done: true}`. -/
def execStepParse (raw : List Char) : Json :=
  match firstObject raw with
  | some jsonStr =>
    match jsonParse jsonStr with
    | some v => v
    | none => fallbackExec raw
  | none => fallbackExec raw

/-- `runTool` (route lines 562-573).  The Python subprocess is the oracle
`toolExec`, indexed by invocation order: `.error e` models `execSync`
raising (which this function does NOT catch), `.ok raw` models it returning
stdout `raw`.  Only a JSON parse failure of the output is converted into
the structured error object `{error, raw}`. -/
def runToolModel (toolExec : Nat → Except (List Char) (List Char)) (t : Nat)
    (tool : Json) : Except (List Char) Json :=
  match toolExec t with
  | .error e => .error e
  | .ok raw =>
    match jsonParse raw with
    | some v => .ok v
    | none =>
      .ok (.obj [("error".toList, .str ("Invalid JSON from ".toList ++ jsStringOf tool)),
                 ("raw".toList, .str raw)])

/-! ### Events and the execution loop -/

/-- One SSE event written by the route (the `data: [DONE]` sentinel line is
`doneMark`; a missing `plan` payload — JS `undefined` — is `none`). -/
inductive Event where
  | status (message : List Char)
  | plan (steps : Option (List Json))
  | step (index : Nat) (stepv : Json) (output : Json)
  | summaryChunk (delta : List Char)
  | summary (text : List Char) (complete_all : Bool) (error : Bool)
  | doneMark

/-- Which phase a model call belongs to. -/
inductive Phase where
  | plan
  | exec
  | summarize
deriving DecidableEq, Repr

/-- A record of one model call: its phase and the history it was given. -/
structure Call where
  phase : Phase
  history : List Msg
deriving DecidableEq, Repr

/-- `ToolLogEntry` from the route: `{tool, params?, result}`. -/
structure ToolLogEntry where
  tool : Json
  params : Option Json
  result : Json

/-- `StepLogEntry` from the route: `{step, output}`. -/
structure StepLogEntry where
  step : Json
  output : Json

/-- State of the step-execution loop: plan index `i`, model-call counter
`n`, tool-call counter `t`, the two logs, the events emitted so far and the
model calls made so far. -/
structure LoopSt where
  i : Nat
  n : Nat
  t : Nat
  toolsLog : List ToolLogEntry
  stepsLog : List StepLogEntry
  events : List Event
  calls : List Call

/-- Outcome of running the loop with some amount of fuel: it ran to
completion, it was still running when the fuel ran out, or a tool
invocation raised. -/
inductive LoopOut where
  | finished (st : LoopSt)
  | hung (st : LoopSt)
  | threw (e : List Char) (st : LoopSt)

/-- The state carried by any loop outcome. -/
def LoopOut.st : LoopOut → LoopSt
  | .finished s => s
  | .hung s => s
  | .threw _ s => s

/-- Did the loop outcome raise? -/
def LoopOut.isThrew : LoopOut → Bool
  | .threw _ _ => true
  | _ => false

/-- Did the loop outcome run to completion? -/
def LoopOut.isFinished : LoopOut → Bool
  | .finished _ => true
  | _ => false

/-- Was the loop still running when the fuel ran out? -/
def LoopOut.isHung : LoopOut → Bool
  | .hung _ => true
  | _ => false

/-- Fixed inputs of the loop. -/
structure LoopCtx where
  steps : List Json
  messages : List Msg
  llm : Nat → List Char
  toolExec : Nat → Except (List Char) (List Char)

/-- The `status` message `Step ${i + 1}/${steps.length}`. -/
def stepStatus (i len : Nat) : List Char :=
  "Step ".toList ++ (toString (i + 1)).toList ++ '/' :: (toString len).toList

/-- The model call made by `execStep`: its history is the sanitised
messages. -/
def execCall (ctx : LoopCtx) : Call := ⟨.exec, cleanMsgs ctx.messages⟩

/-- Loop-iteration bookkeeping common to both branches: the step `status`
event and the `execStep` model call (llm counter, call record). -/
def loopIterState (ctx : LoopCtx) (st : LoopSt) : LoopSt :=
  { st with
    n := st.n + 1
    events := st.events ++ [.status (stepStatus st.i ctx.steps.length)]
    calls := st.calls ++ [execCall ctx] }

/-- The tool branch: `toolsLog.push({tool: act.tool, params: act.params,
result})` and the `i--; continue` retry (the index is left unchanged). -/
def toolAppend (st : LoopSt) (act result : Json) : LoopSt :=
  { st with
    t := st.t + 1
    toolsLog := st.toolsLog ++
      [⟨(getField act "tool".toList).getD .null, getField act "params".toList, result⟩] }

/-- The non-tool branch: `stepsLog.push({step: steps[i], output: act.result
?? ''})` and the `step` event. -/
def stepAppend (ctx : LoopCtx) (st : LoopSt) (act : Json) : LoopSt :=
  { st with
    stepsLog := st.stepsLog ++
      [⟨ctx.steps.getD st.i .null, nullishDefault (getField act "result".toList) (.str [])⟩]
    events := st.events ++
      [.step st.i (ctx.steps.getD st.i .null)
        (nullishDefault (getField act "result".toList) (.str []))] }

/-- The `outer:` for-loop of `POST` (route lines 666-682), fuelled (one unit
per iteration; the source has no iteration bound, so the fuel is a device
of the model only).  Each iteration emits the step status, makes one model
call via `execStep` (whose history is the sanitised messages), and then:
if the parsed action has a truthy `tool` property, runs the tool, appends
one ToolLogEntry and re-runs the same index (`i--; continue`); otherwise
appends one StepLogEntry, emits a `step` event, and breaks if `done` is
truthy or this was the last index, else advances the index. -/
def runLoop (ctx : LoopCtx) : Nat → LoopSt → LoopOut
  | 0, st => .hung st
  | fuel + 1, st =>
    if st.i < ctx.steps.length then
      let act := execStepParse (ctx.llm st.n)
      let st1 := loopIterState ctx st
      if jsTruthyOpt (getField act "tool".toList) then
        match runToolModel ctx.toolExec st1.t ((getField act "tool".toList).getD .null) with
        | .error e => .threw e st1
        | .ok result => runLoop ctx fuel (toolAppend st1 act result)
      else
        let st2 := stepAppend ctx st1 act
        if jsTruthyOpt (getField act "done".toList) || st.i = ctx.steps.length - 1 then
          .finished st2
        else runLoop ctx fuel { st2 with i := st.i + 1 }
    else .finished st

/-- The result of one request: the SSE events in order, the model calls in
order, and whether the loop was still running when the fuel ran out. -/
structure RunResult where
  events : List Event
  calls : List Call
  hung : Bool

/-- The `⚠️ ` prefix of a caught-error summary. -/
def warnPrefix : List Char := "⚠️ ".toList

/-- The TypeError message raised when `planRes.direct` is the empty string:
the code then reads `planRes.steps!.length` with `steps` undefined. -/
def typeErrorMsg : List Char :=
  "Cannot read properties of undefined (reading length)".toList

/-- Two newlines. -/
def nl2 : List Char := ['\n', '\n']

/-- JSON encoding of one StepLogEntry, as `JSON.stringify` sees it. -/
def stepLogJson (e : StepLogEntry) : Json :=
  .obj [("step".toList, e.step), ("output".toList, e.output)]

/-- JSON encoding of one ToolLogEntry; an absent `params` (JS `undefined`)
is omitted by `JSON.stringify`. -/
def toolLogJson (e : ToolLogEntry) : Json :=
  .obj ([("tool".toList, e.tool)] ++
        (match e.params with
         | some p => [("params".toList, p)]
         | none => []) ++
        [("result".toList, e.result)])

/-- The object `{ stepsLog, toolsLog }` serialised into the hidden block. -/
def logsJson (stepsLog : List StepLogEntry) (toolsLog : List ToolLogEntry) : Json :=
  .obj [("stepsLog".toList, .arr (stepsLog.map stepLogJson)),
        ("toolsLog".toList, .arr (toolsLog.map toolLogJson))]

/-- The hidden block appended to the summary:
`<!--CONTEXT\n${JSON.stringify({ stepsLog, toolsLog })}\nCONTEXT-->`. -/
def mkHidden (stepsLog : List StepLogEntry) (toolsLog : List ToolLogEntry) : List Char :=
  openMark ++ '\n' :: jsonStringify (logsJson stepsLog toolsLog) ++ '\n' :: closeMark

/-- The `POST` handler of the plan/execute/summarize route (lines 638-713):
plan phase (model call 0, sanitised history), then either the direct-answer
short-circuit, or the execution loop followed by the summary model call
(which is given the raw `messages` as history).  Exceptions (the undefined
`steps` TypeError and tool `execSync` failures) are caught and surface as a
`summary` event with `error: true`.  The `query` string and the prompt
templates only feed the opaque prompts and are not modelled. -/
def POSTmodel (messages : List Msg) (llm : Nat → List Char)
    (toolExec : Nat → Except (List Char) (List Char)) (fuel : Nat) : RunResult :=
  let planCalls : List Call := [⟨.plan, cleanMsgs messages⟩]
  let ev0 : List Event := [.status "Planning…".toList]
  match getPlanParse (llm 0) with
  | .direct d =>
    if d ≠ [] then
      ⟨ev0 ++ [.summary d true false, .doneMark], planCalls, false⟩
    else
      ⟨ev0 ++ [.plan none, .summary (warnPrefix ++ typeErrorMsg) true true, .doneMark],
       planCalls, false⟩
  | .steps steps =>
    let ev1 := ev0 ++ [.plan (some steps)]
    match runLoop ⟨steps, messages, llm, toolExec⟩ fuel ⟨0, 1, 0, [], [], ev1, planCalls⟩ with
    | .finished st =>
      ⟨st.events ++ [.status "Finalising…".toList,
                     .summary (llm st.n ++ nl2 ++ mkHidden st.stepsLog st.toolsLog) true false,
                     .doneMark],
       st.calls ++ [⟨.summarize, messages⟩], false⟩
    | .threw e st =>
      ⟨st.events ++ [.summary (warnPrefix ++ e) true true, .doneMark], st.calls, false⟩
    | .hung st => ⟨st.events, st.calls, true⟩

/-! ### The client chat renderer -/

/-- `content.replace(/\r\n/g, '\n')`. -/
def normalizeNl : List Char → List Char
  | [] => []
  | [c] => [c]
  | c :: d :: rest =>
    if c = '\r' ∧ d = '\n' then '\n' :: normalizeNl rest
    else c :: normalizeNl (d :: rest)

/-- The assistant-content display pipeline of `ChatMessage.tsx`
(lines 118-127): strip hidden context blocks, normalise CRLF, trim. -/
def chatMd (content : List Char) : List Char :=
  jsTrim (normalizeNl (stripCtx content))

/-! ### Event observations -/

/-- The kind of an event. -/
inductive EvKind where
  | status
  | plan
  | step
  | chunk
  | summary
  | doneMark
deriving DecidableEq, Repr

/-- Kind of one event. -/
def kindOf : Event → EvKind
  | .status _ => .status
  | .plan _ => .plan
  | .step _ _ _ => .step
  | .summaryChunk _ => .chunk
  | .summary _ _ _ => .summary
  | .doneMark => .doneMark

/-- The kinds of the substantive events, with `status` progress messages and
the terminating sentinel filtered out. -/
def coreKinds (evs : List Event) : List EvKind :=
  (evs.map kindOf).filter fun k => k ≠ .status ∧ k ≠ .doneMark

/-- Indices of the `step` events, in emission order. -/
def stepIndices (evs : List Event) : List Nat :=
  evs.filterMap fun e =>
    match e with
    | .step i _ _ => some i
    | _ => none

/-- The `(text, complete_all, error)` payloads of the `summary` events. -/
def summaryRecs (evs : List Event) : List (List Char × Bool × Bool) :=
  evs.filterMap fun e =>
    match e with
    | .summary txt c err => some (txt, c, err)
    | _ => none

/-- The step counts carried by `plan` events (`none` for a `plan` event
whose payload was `undefined`). -/
def planStepCounts (evs : List Event) : List (Option Nat) :=
  evs.filterMap fun e =>
    match e with
    | .plan s => some (s.map List.length)
    | _ => none

/-- Count of events of one kind. -/
def countKind (k : EvKind) (evs : List Event) : Nat :=
  (evs.filter fun e => kindOf e = k).length

/-- A string with no complete `<!--CONTEXT ... CONTEXT-->` marker pair. -/
def NoMarkerPair (s : List Char) : Prop :=
  ¬ ∃ a b c, s = a ++ openMark ++ b ++ closeMark ++ c

/-- Executable check for the presence of a complete marker pair. -/
def hasPairB : List Char → Bool
  | [] => false
  | c :: rest =>
    (hasLead openMark (c :: rest) && (findSub closeMark ((c :: rest).drop openMark.length)).isSome)
      || hasPairB rest

/-- C6 counterexample input: removing the inner block splices the
surrounding text into a brand-new complete marker pair. -/
def sanSpliceStr : List Char :=
  "<!--CONTEX<!--CONTEXT x CONTEXT-->T CONTEXT-->".toList

/-- C5 counterexample prefix: a balanced (but non-empty) brace pair. -/
def preBal : List Char := [lbrace, rbrace]

/-- C5 counterexample payload object. -/
def objA : List Char := [lbrace, 'a', rbrace]

/-! ### Concrete scenario oracles used by claim instances -/

/-- A conversation whose user message carries a hidden context block. -/
def ctxMsgs : List Msg :=
  [⟨.user, "What are my courses?<!--CONTEXT \x7b\"id\":1\x7d CONTEXT-->".toList⟩]

/-- Eleven plain messages (more than `MAX_HISTORY`). -/
def elevenMsgs : List Msg := List.replicate 11 ⟨Role.user, "m".toList⟩

/-- A step-call response requesting a tool. -/
def toolResp : List Char := "\x7b\"tool\":\"get_courses\",\"params\":\x7b\x7d\x7d".toList

/-- A step-call response with only a result, not done. -/
def resultResp : List Char := "\x7b\"result\":\"ok\",\"done\":false\x7d".toList

/-- A step-call response with only a result, done. -/
def resultDoneResp : List Char := "\x7b\"result\":\"ok\",\"done\":true\x7d".toList

/-- Model oracle of the normal one-step scenario: a one-step plan, one tool
call, one finalized result, then summary text. -/
def llmNormal : Nat → List Char := fun n =>
  if n = 0 then "\x7b\"steps\":[\"find courses\"]\x7d".toList
  else if n = 1 then toolResp
  else if n = 2 then resultDoneResp
  else "SUMMARY TEXT".toList

/-- Model oracle returning a two-step plan whose first step finishes with
`done: true` (early break). -/
def llmEarlyDone : Nat → List Char := fun n =>
  if n = 0 then "\x7b\"steps\":[\"a\",\"b\"]\x7d".toList
  else if n = 1 then resultDoneResp
  else "SUM".toList

/-- Model oracle that requests a tool on every step call. -/
def llmAlwaysTool : Nat → List Char := fun n =>
  if n = 0 then "\x7b\"steps\":[\"a\"]\x7d".toList else toolResp

/-- Model oracle whose plan-phase response has no extractable JSON and
trims to the empty string. -/
def llmBlank : Nat → List Char := fun _ => "   ".toList

/-- Model oracle whose plan-phase response is plain prose. -/
def llmProse : Nat → List Char := fun _ => "no json here".toList

/-- Tool oracle that always succeeds with JSON output. -/
def texOk : Nat → Except (List Char) (List Char) := fun _ => .ok "[1,2]".toList

/-- Tool oracle that always succeeds but returns non-JSON output. -/
def texNonJson : Nat → Except (List Char) (List Char) := fun _ => .ok "oops not json".toList

/-- Tool oracle whose subprocess raises (transport failure). -/
def texErr : Nat → Except (List Char) (List Char) := fun _ => .error "boom".toList

/-- C1 scenario loop context: a two-element plan, the three responses of
the claim (tool, tool, result-only) supplied in order. -/
def c1ctx : LoopCtx :=
  ⟨[.str "a".toList, .str "b".toList], [⟨.user, "q".toList⟩],
   fun n => if n < 2 then toolResp else resultResp, texOk⟩

/-- The loop state at entry of the execution phase. -/
def loopSt0 : LoopSt := ⟨0, 0, 0, [], [], [], []⟩

/-- A step-call oracle that requests a tool on every call. -/
def llmToolOnly : Nat → List Char := fun _ => toolResp

/-- C9 scenario loop context: a one-step plan against the always-tool
oracle. -/
def alwaysToolCtx : LoopCtx :=
  ⟨[.str "a".toList], [⟨.user, "q".toList⟩], llmToolOnly, texOk⟩

/-! ### Lemmas about the marker scanner -/

theorem hasLead_iff (p s : List Char) : hasLead p s = true ↔ ∃ u, s = p ++ u := by
  induction p generalizing s with
  | nil => simp [hasLead]
  | cons x xs ih =>
    cases s with
    | nil =>
      simp only [hasLead, Bool.false_eq_true, false_iff]
      rintro ⟨u, hu⟩
      exact absurd hu (by simp)
    | cons c cs =>
      simp only [hasLead, Bool.and_eq_true, decide_eq_true_eq, ih]
      constructor
      · rintro ⟨rfl, u, rfl⟩
        exact ⟨u, rfl⟩
      · rintro ⟨u, hu⟩
        simp only [List.cons_append, List.cons.injEq] at hu
        exact ⟨hu.1.symm, u, hu.2⟩

theorem findSub_some {pat s : List Char} {j : Nat} (h : findSub pat s = some j) :
    ∃ x y, s = x ++ pat ++ y ∧ x.length = j := by
  induction s generalizing j with
  | nil =>
    simp only [findSub] at h
    split at h
    · rename_i hl
      rw [hasLead_iff] at hl
      obtain ⟨u, hu⟩ := hl
      refine ⟨[], u, by simpa using hu, ?_⟩
      simpa using ((Option.some.injEq _ _).mp h.symm).symm
    · exact absurd h (by simp)
  | cons c cs ih =>
    simp only [findSub] at h
    split at h
    · rename_i hl
      rw [hasLead_iff] at hl
      obtain ⟨u, hu⟩ := hl
      have hj : j = 0 := by simpa using (Option.some.injEq _ _).mp h.symm
      exact ⟨[], u, by simpa using hu, by simp [hj]⟩
    · rename_i hl
      cases hf : findSub pat cs with
      | none =>
        rw [hf] at h
        exact absurd h (by simp)
      | some j0 =>
        rw [hf] at h
        have hj : j0 + 1 = j := by simpa using h
        obtain ⟨x, y, hxy, hlen⟩ := ih hf
        exact ⟨c :: x, y, by simp [hxy], by simp [hlen, hj]⟩

theorem stripGo_no_pair : ∀ fuel s, s.length ≤ fuel → NoMarkerPair s → stripGo fuel s = s := by
  intro fuel
  induction fuel with
  | zero => intro s _ _; rfl
  | succ fuel ih =>
    intro s hlen hnp
    cases s with
    | nil => rfl
    | cons c rest =>
      have hlenr : rest.length ≤ fuel := by
        simp only [List.length_cons] at hlen; omega
      have hr : NoMarkerPair rest := by
        rintro ⟨a, b, d, hd⟩
        exact hnp ⟨c :: a, b, d, by simp [hd]⟩
      simp only [stripGo]
      by_cases hl : hasLead openMark (c :: rest) = true
      · obtain ⟨u, hu⟩ := (hasLead_iff _ _).mp hl
        cases hf : findSub closeMark ((c :: rest).drop openMark.length) with
        | some j =>
          exfalso
          obtain ⟨x, y, hxy, -⟩ := findSub_some hf
          have hdrop : (c :: rest).drop openMark.length = u := by
            rw [hu]; simp
          rw [hdrop] at hxy
          refine hnp ⟨[], x, y, ?_⟩
          rw [hu, hxy]
          simp [List.append_assoc]
        | none =>
          rw [if_pos hl]
          show c :: stripGo fuel rest = c :: rest
          rw [ih rest hlenr hr]
      · rw [if_neg hl]
        rw [ih rest hlenr hr]

theorem stripContext_no_pair {s : List Char} (h : NoMarkerPair s) : stripContext s = s :=
  stripGo_no_pair s.length s le_rfl h

theorem findSub_none {pat s : List Char} (h : findSub pat s = none) :
    ¬ ∃ x y, s = x ++ pat ++ y := by
  induction s with
  | nil =>
    rintro ⟨x, y, hxy⟩
    have hx : x = [] := by
      cases x with
      | nil => rfl
      | cons a as => simp at hxy
    subst hx
    have hy : pat = [] ∧ y = [] := by simpa using hxy.symm
    rw [findSub, if_pos (by rw [hasLead_iff]; exact ⟨[], by simp [hy.1]⟩)] at h
    exact absurd h (by simp)
  | cons c cs ih =>
    rintro ⟨x, y, hxy⟩
    rw [findSub] at h
    split at h
    · exact absurd h (by simp)
    · rename_i hl
      cases x with
      | nil =>
        exact absurd ((hasLead_iff pat (c :: cs)).mpr ⟨y, by simpa using hxy⟩) hl
      | cons a as =>
        have hcs : cs = as ++ pat ++ y := by
          have h2 := (by simpa using hxy : c = a ∧ cs = as ++ (pat ++ y))
          simp [h2.2, List.append_assoc]
        have hfs : findSub pat cs = none := by
          cases hfs : findSub pat cs with
          | none => rfl
          | some j => rw [hfs] at h; exact absurd h (by simp)
        exact ih hfs ⟨as, y, hcs⟩

theorem noMarkerPair_of_hasPairB {s : List Char} (h : hasPairB s = false) : NoMarkerPair s := by
  induction s with
  | nil =>
    rintro ⟨a, b, c, habc⟩
    exact absurd habc (by simp [openMark])
  | cons ch rest ih =>
    rw [hasPairB] at h
    simp only [Bool.or_eq_false_iff, Bool.and_eq_false_iff] at h
    rintro ⟨a, b, c, habc⟩
    cases a with
    | nil =>
      simp only [List.nil_append] at habc
      rcases h.1 with hl | hs
      · have hlt : hasLead openMark (ch :: rest) = true :=
          (hasLead_iff _ _).mpr ⟨b ++ closeMark ++ c, by rw [habc]; simp [List.append_assoc]⟩
        rw [hl] at hlt
        exact absurd hlt (by simp)
      · have hdrop : (ch :: rest).drop openMark.length = b ++ closeMark ++ c := by
          rw [habc]; simp [List.append_assoc]
        cases hf : findSub closeMark ((ch :: rest).drop openMark.length) with
        | some j => rw [hf] at hs; exact absurd hs (by simp)
        | none =>
          rw [hdrop] at hf
          exact findSub_none hf ⟨b, c, rfl⟩
    | cons a0 as =>
      have hrest : rest = as ++ openMark ++ b ++ closeMark ++ c := by
        have h2 := (by simpa using habc : ch = a0 ∧ rest = as ++ (openMark ++ (b ++ (closeMark ++ c))))
        simp [h2.2, List.append_assoc]
      exact ih h.2 ⟨as, b, c, hrest⟩

/-! ### Claim C6 -/

/-- C6 (amended): the context sanitizer is the identity on every string
containing zero complete `<!--CONTEXT ... CONTEXT-->` marker pairs, and is
consequently idempotent on every input whose sanitized output contains no
marker pair; full idempotence fails (see the counterexample), because
removing a block can splice the surrounding text into a new marker pair. -/
theorem C6_sanitizer_amended :
    (∀ s : List Char, NoMarkerPair s → stripContext s = s) ∧
    (∀ s : List Char, NoMarkerPair (stripContext s) →
      stripContext (stripContext s) = stripContext s) :=
  ⟨fun _ h => stripContext_no_pair h, fun _ h => stripContext_no_pair h⟩

/-- C6 counterexample: on `sanSpliceStr` the sanitizer is not idempotent —
one application removes the inner block and thereby creates a fresh
`<!--CONTEXT ... CONTEXT-->` pair, which the second application removes. -/
theorem C6_sanitizer_cex :
    stripContext (stripContext sanSpliceStr) ≠ stripContext sanSpliceStr := by decide

/-- C6 witness: the amended theorem applied to concrete inputs. -/
theorem C6_sanitizer_witness :
    stripContext "plain text".toList = "plain text".toList ∧
    stripContext (stripContext "a<!--CONTEXT x CONTEXT-->b".toList) =
      stripContext "a<!--CONTEXT x CONTEXT-->b".toList :=
  ⟨C6_sanitizer_amended.1 _ (noMarkerPair_of_hasPairB (by decide)),
   C6_sanitizer_amended.2 _ (noMarkerPair_of_hasPairB (by decide))⟩

/-! ### Lemmas about the JSON extractors -/

theorem lbrace_ne_rbrace : lbrace ≠ rbrace := by decide

theorem firstObjectGo_skip (s : List Char) :
    ∀ pre rest i d start, braceFree pre = true →
    firstObjectGo s (pre ++ rest) i d start = firstObjectGo s rest (i + pre.length) d start := by
  intro pre
  induction pre with
  | nil => intro rest i d start _; simp
  | cons c pre ih =>
    intro rest i d start hbf
    simp only [braceFree, List.all_cons, Bool.and_eq_true, decide_eq_true_eq] at hbf
    simp only [List.cons_append, firstObjectGo, List.append_eq]
    rw [if_neg (by simpa using hbf.1.1), if_neg (by simpa using hbf.1.2)]
    have hfree : braceFree pre = true := by simpa [braceFree] using hbf.2
    rw [ih rest (i + 1) d start hfree]
    have harg : i + (c :: pre).length = i + 1 + pre.length := by
      simp only [List.length_cons]; omega
    rw [harg]

theorem firstJsonGo_skip (s : List Char) :
    ∀ pre rest i d start, braceFree pre = true →
    firstJsonGo s (pre ++ rest) i d start = firstJsonGo s rest (i + pre.length) d start := by
  intro pre
  induction pre with
  | nil => intro rest i d start _; simp
  | cons c pre ih =>
    intro rest i d start hbf
    simp only [braceFree, List.all_cons, Bool.and_eq_true, decide_eq_true_eq] at hbf
    simp only [List.cons_append, firstJsonGo, List.append_eq]
    rw [if_neg (by simpa using hbf.1.1), if_neg (by simpa using hbf.1.2)]
    have hfree : braceFree pre = true := by simpa [braceFree] using hbf.2
    rw [ih rest (i + 1) d start hfree]
    have harg : i + (c :: pre).length = i + 1 + pre.length := by
      simp only [List.length_cons]; omega
    rw [harg]

theorem firstObjectGo_closes (s : List Char) :
    ∀ body suffix i d start, closesB d body = true → 1 ≤ d → 0 ≤ start →
    firstObjectGo s (body ++ suffix) i d start = some (jsSlice s start (i + body.length)) := by
  intro body
  induction body with
  | nil =>
    intro suffix i d start hcl hd _
    exfalso
    simp only [closesB, decide_eq_true_eq] at hcl
    omega
  | cons ch body ih =>
    intro suffix i d start hcl hd hst
    simp only [closesB, Bool.and_eq_true, decide_eq_true_eq] at hcl
    obtain ⟨hd0, hcl⟩ := hcl
    have harg : i + (ch :: body).length = i + 1 + body.length := by
      simp only [List.length_cons]; omega
    simp only [List.cons_append, firstObjectGo, List.append_eq]
    by_cases hbl : ch = lbrace
    · have hδ : braceDelta ch = 1 := by rw [hbl]; simp [braceDelta]
      rw [hδ] at hcl
      rw [if_pos hbl, if_neg (by omega : ¬ d = 0)]
      rw [ih suffix (i + 1) (d + 1) start hcl (by omega) hst, harg]
    · by_cases hbr : ch = rbrace
      · have hδ : braceDelta ch = -1 := by
          rw [hbr]; simp [braceDelta, lbrace_ne_rbrace.symm]
        rw [hδ] at hcl
        rw [if_neg hbl, if_pos hbr]
        by_cases hd1 : d = 1
        · have hbody : body = [] := by
            cases body with
            | nil => rfl
            | cons b bs =>
              exfalso
              simp only [closesB, Bool.and_eq_true, decide_eq_true_eq] at hcl
              omega
          subst hbody
          rw [if_pos ⟨by omega, hst⟩]
          simp
        · rw [if_neg (fun h => hd1 (by omega))]
          rw [ih suffix (i + 1) (d - 1) start (by
            have h2 : d + (-1) = d - 1 := by ring
            rwa [h2] at hcl) (by omega) hst, harg]
      · have hδ : braceDelta ch = 0 := by simp [braceDelta, hbl, hbr]
        rw [hδ, add_zero] at hcl
        rw [if_neg hbl, if_neg hbr]
        rw [ih suffix (i + 1) d start hcl hd hst, harg]

theorem firstJsonGo_closes (s : List Char) :
    ∀ body suffix i d start, closesB d body = true → 1 ≤ d →
    firstJsonGo s (body ++ suffix) i d start = some (jsSlice s start (i + body.length)) := by
  intro body
  induction body with
  | nil =>
    intro suffix i d start hcl hd
    exfalso
    simp only [closesB, decide_eq_true_eq] at hcl
    omega
  | cons ch body ih =>
    intro suffix i d start hcl hd
    simp only [closesB, Bool.and_eq_true, decide_eq_true_eq] at hcl
    obtain ⟨hd0, hcl⟩ := hcl
    have harg : i + (ch :: body).length = i + 1 + body.length := by
      simp only [List.length_cons]; omega
    simp only [List.cons_append, firstJsonGo, List.append_eq]
    by_cases hbl : ch = lbrace
    · have hδ : braceDelta ch = 1 := by rw [hbl]; simp [braceDelta]
      rw [hδ] at hcl
      rw [if_pos hbl, if_neg (by omega : ¬ d = 0)]
      rw [ih suffix (i + 1) (d + 1) start hcl (by omega), harg]
    · by_cases hbr : ch = rbrace
      · have hδ : braceDelta ch = -1 := by
          rw [hbr]; simp [braceDelta, lbrace_ne_rbrace.symm]
        rw [hδ] at hcl
        rw [if_neg hbl, if_pos hbr]
        by_cases hd1 : d = 1
        · have hbody : body = [] := by
            cases body with
            | nil => rfl
            | cons b bs =>
              exfalso
              simp only [closesB, Bool.and_eq_true, decide_eq_true_eq] at hcl
              omega
          subst hbody
          rw [if_pos (by omega)]
          simp
        · rw [if_neg (fun h => hd1 (by omega))]
          rw [ih suffix (i + 1) (d - 1) start (by
            have h2 : d + (-1) = d - 1 := by ring
            rwa [h2] at hcl) (by omega), harg]
      · have hδ : braceDelta ch = 0 := by simp [braceDelta, hbl, hbr]
        rw [hδ, add_zero] at hcl
        rw [if_neg hbl, if_neg hbr]
        rw [ih suffix (i + 1) d start hcl hd, harg]

theorem firstObjectGo_noOpen (s : List Char) :
    ∀ rest i d start, d ≤ 0 → (rest.all fun c => c ≠ lbrace) = true →
    firstObjectGo s rest i d start = none := by
  intro rest
  induction rest with
  | nil => intro i d start _ _; rfl
  | cons c cs ih =>
    intro i d start hd hall
    simp only [List.all_cons, Bool.and_eq_true, decide_eq_true_eq] at hall
    simp only [firstObjectGo]
    rw [if_neg (by simpa using hall.1)]
    by_cases hbr : c = rbrace
    · rw [if_pos hbr, if_neg (fun h => by omega)]
      exact ih (i + 1) (d - 1) start (by omega) (by simpa [List.all_eq_true] using hall.2)
    · rw [if_neg hbr]
      exact ih (i + 1) d start hd (by simpa [List.all_eq_true] using hall.2)

theorem firstJsonGo_noOpen (s : List Char) :
    ∀ rest i d start, d ≤ 0 → (rest.all fun c => c ≠ lbrace) = true →
    firstJsonGo s rest i d start = none := by
  intro rest
  induction rest with
  | nil => intro i d start _ _; rfl
  | cons c cs ih =>
    intro i d start hd hall
    simp only [List.all_cons, Bool.and_eq_true, decide_eq_true_eq] at hall
    simp only [firstJsonGo]
    rw [if_neg (by simpa using hall.1)]
    by_cases hbr : c = rbrace
    · rw [if_pos hbr, if_neg (fun h => by omega)]
      exact ih (i + 1) (d - 1) start (by omega) (by simpa [List.all_eq_true] using hall.2)
    · rw [if_neg hbr]
      exact ih (i + 1) d start hd (by simpa [List.all_eq_true] using hall.2)

theorem jsSlice_concat (pre mid suf : List Char) :
    jsSlice (pre ++ (mid ++ suf)) (pre.length : Int) (pre.length + mid.length) = mid := by
  unfold jsSlice
  rw [if_neg (by omega : ¬ (pre.length : Int) < 0)]
  rw [← List.append_assoc]
  have h1 : pre.length + mid.length = (pre ++ mid).length := (List.length_append _ _).symm
  rw [h1, List.take_left]
  simp [Int.toNat_ofNat]

/-! ### Claim C5 -/

/-- C5 (amended): for every string `pre ++ obj ++ suf` where `pre` contains
no brace characters at all and `obj` is a balanced brace-delimited object,
both extractors return exactly `obj` (arbitrary trailing content ignored);
and on every string containing no `\x7b` both extractors return none.  The
original hypothesis "prefix contains no unbalanced braces" is too weak:
a brace-balanced prefix may itself contain the first top-level object, see
the counterexample. -/
theorem C5_extractor_amended :
    (∀ pre obj suf : List Char, braceFree pre = true → isBalObj obj = true →
      firstObject (pre ++ (obj ++ suf)) = some obj ∧
      firstJson (pre ++ (obj ++ suf)) = some obj) ∧
    (∀ s : List Char, (s.all fun c => c ≠ lbrace) = true →
      firstObject s = none ∧ firstJson s = none) := by
  constructor
  · intro pre obj suf hpre hobj
    cases obj with
    | nil => exact absurd hobj (by simp [isBalObj])
    | cons c body =>
      simp only [isBalObj, Bool.and_eq_true, decide_eq_true_eq] at hobj
      obtain ⟨rfl, hcl⟩ := hobj
      have hslice := jsSlice_concat pre (lbrace :: body) suf
      simp only [List.cons_append] at hslice
      have harg : pre.length + 1 + body.length = pre.length + (lbrace :: body).length := by
        simp only [List.length_cons]; omega
      have hcl1 : closesB (0 + 1) body = true := by rwa [zero_add]
      constructor
      · show firstObjectGo _ _ 0 0 (-1) = _
        rw [firstObjectGo_skip _ pre _ 0 0 (-1) hpre]
        simp only [List.cons_append, firstObjectGo, Nat.zero_add, List.append_eq]
        rw [if_pos trivial, if_pos trivial]
        rw [firstObjectGo_closes _ body suf (pre.length + 1) (0 + 1)
          ((pre.length : Nat) : Int) hcl1 (by omega) (by omega)]
        rw [harg, hslice]
      · show firstJsonGo _ _ 0 0 (-1) = _
        rw [firstJsonGo_skip _ pre _ 0 0 (-1) hpre]
        simp only [List.cons_append, firstJsonGo, Nat.zero_add, List.append_eq]
        rw [if_pos trivial, if_pos trivial]
        rw [firstJsonGo_closes _ body suf (pre.length + 1) (0 + 1)
          ((pre.length : Nat) : Int) hcl1 (by omega)]
        rw [harg, hslice]
  · intro s hall
    exact ⟨firstObjectGo_noOpen s s 0 0 (-1) (by omega) hall,
           firstJsonGo_noOpen s s 0 0 (-1) (by omega) hall⟩

/-- C5 counterexample: with prefix `\x7b\x7d` (all braces balanced, so "no
unbalanced braces" holds) and balanced object `\x7ba\x7d`, both extractors
return the prefix pair, not the designated object, refuting the claim as
stated. -/
theorem C5_extractor_cex :
    braceBalanced preBal = true ∧ isBalObj objA = true ∧
    braceBalanced ([] : List Char) = true ∧
    firstObject (preBal ++ (objA ++ [])) = some preBal ∧
    firstJson (preBal ++ (objA ++ [])) = some preBal ∧
    preBal ≠ objA := by decide

/-- C5 witness: the amended theorem applied to concrete inputs. -/
theorem C5_extractor_witness :
    (firstObject ("pre ".toList ++ (objA ++ " tail".toList)) = some objA ∧
      firstJson ("pre ".toList ++ (objA ++ " tail".toList)) = some objA) ∧
    (firstObject "no braces here".toList = none ∧
      firstJson "no braces here".toList = none) :=
  ⟨C5_extractor_amended.1 "pre ".toList objA " tail".toList (by decide) (by decide),
   C5_extractor_amended.2 "no braces here".toList (by decide)⟩

/-! ### Lemmas about the execution loop -/

theorem cleanMsgs_length (ms : List Msg) : (cleanMsgs ms).length = ms.length := by
  simp [cleanMsgs]

theorem loopIterState_i (ctx : LoopCtx) (st : LoopSt) : (loopIterState ctx st).i = st.i := rfl

theorem loopIterState_t (ctx : LoopCtx) (st : LoopSt) : (loopIterState ctx st).t = st.t := rfl

theorem loopIterState_stepsLog (ctx : LoopCtx) (st : LoopSt) :
    (loopIterState ctx st).stepsLog = st.stepsLog := rfl

theorem toolAppend_i (st : LoopSt) (act result : Json) : (toolAppend st act result).i = st.i := rfl

theorem toolAppend_stepsLog (st : LoopSt) (act result : Json) :
    (toolAppend st act result).stepsLog = st.stepsLog := rfl

theorem runToolModel_ok {toolExec : Nat → Except (List Char) (List Char)} {t : Nat}
    {raw : List Char} (tool : Json) (h : toolExec t = .ok raw) :
    ∃ r, runToolModel toolExec t tool = .ok r := by
  cases hj : jsonParse raw with
  | some v =>
    refine ⟨v, ?_⟩
    unfold runToolModel
    rw [h]
    show (match jsonParse raw with
          | some v => Except.ok v
          | none =>
            Except.ok (Json.obj
              [("error".toList, Json.str ("Invalid JSON from ".toList ++ jsStringOf tool)),
               ("raw".toList, Json.str raw)])) = Except.ok v
    rw [hj]
  | none =>
    refine ⟨.obj [("error".toList, .str ("Invalid JSON from ".toList ++ jsStringOf tool)),
                  ("raw".toList, .str raw)], ?_⟩
    unfold runToolModel
    rw [h]
    show (match jsonParse raw with
          | some v => Except.ok v
          | none =>
            Except.ok (Json.obj
              [("error".toList, Json.str ("Invalid JSON from ".toList ++ jsStringOf tool)),
               ("raw".toList, Json.str raw)])) =
      Except.ok (Json.obj
        [("error".toList, Json.str ("Invalid JSON from ".toList ++ jsStringOf tool)),
         ("raw".toList, Json.str raw)])
    rw [hj]

theorem runLoop_zero (ctx : LoopCtx) (st : LoopSt) : runLoop ctx 0 st = .hung st := rfl

theorem runLoop_stop (ctx : LoopCtx) (fuel : Nat) (st : LoopSt)
    (h : ¬ st.i < ctx.steps.length) : runLoop ctx (fuel + 1) st = .finished st := by
  simp only [runLoop]
  rw [if_neg h]

theorem runLoop_tool (ctx : LoopCtx) (fuel : Nat) (st : LoopSt) (raw : List Char)
    (h1 : st.i < ctx.steps.length)
    (h2 : jsTruthyOpt (getField (execStepParse (ctx.llm st.n)) "tool".toList) = true)
    (h3 : ctx.toolExec st.t = .ok raw) :
    ∃ result, runLoop ctx (fuel + 1) st =
      runLoop ctx fuel
        (toolAppend (loopIterState ctx st) (execStepParse (ctx.llm st.n)) result) := by
  obtain ⟨r, hr⟩ := runToolModel_ok
    ((getField (execStepParse (ctx.llm st.n)) "tool".toList).getD .null)
    (show ctx.toolExec (loopIterState ctx st).t = .ok raw from h3)
  refine ⟨r, ?_⟩
  simp only [runLoop]
  rw [if_pos h1, if_pos h2, hr]

theorem runLoop_threw (ctx : LoopCtx) (fuel : Nat) (st : LoopSt) (e : List Char)
    (h1 : st.i < ctx.steps.length)
    (h2 : jsTruthyOpt (getField (execStepParse (ctx.llm st.n)) "tool".toList) = true)
    (h3 : ctx.toolExec st.t = .error e) :
    runLoop ctx (fuel + 1) st = .threw e (loopIterState ctx st) := by
  have hr : runToolModel ctx.toolExec (loopIterState ctx st).t
      ((getField (execStepParse (ctx.llm st.n)) "tool".toList).getD .null) = .error e := by
    unfold runToolModel
    rw [show ctx.toolExec (loopIterState ctx st).t = .error e from h3]
  simp only [runLoop]
  rw [if_pos h1, if_pos h2, hr]

theorem runLoop_nontool (ctx : LoopCtx) (fuel : Nat) (st : LoopSt)
    (h1 : st.i < ctx.steps.length)
    (h2 : jsTruthyOpt (getField (execStepParse (ctx.llm st.n)) "tool".toList) = false) :
    runLoop ctx (fuel + 1) st =
      if (jsTruthyOpt (getField (execStepParse (ctx.llm st.n)) "done".toList)
          || decide (st.i = ctx.steps.length - 1)) = true then
        .finished (stepAppend ctx (loopIterState ctx st) (execStepParse (ctx.llm st.n)))
      else
        runLoop ctx fuel
          { stepAppend ctx (loopIterState ctx st) (execStepParse (ctx.llm st.n)) with
            i := st.i + 1 } := by
  have h2e : jsTruthyOpt (getField (execStepParse (ctx.llm st.n)) ['t', 'o', 'o', 'l']) = false := h2
  simp only [runLoop]
  rw [if_pos h1, if_neg (by simp [h2e])]

theorem stepIndices_append (a b : List Event) :
    stepIndices (a ++ b) = stepIndices a ++ stepIndices b := by
  simp [stepIndices, List.filterMap_append]

theorem coreKinds_append (a b : List Event) :
    coreKinds (a ++ b) = coreKinds a ++ coreKinds b := by
  simp [coreKinds, List.filter_append]

theorem summaryRecs_append (a b : List Event) :
    summaryRecs (a ++ b) = summaryRecs a ++ summaryRecs b := by
  simp [summaryRecs, List.filterMap_append]

theorem stepIndices_status (m : List Char) : stepIndices [.status m] = [] := rfl

theorem stepIndices_step (i : Nat) (sv o : Json) : stepIndices [.step i sv o] = [i] := rfl

theorem coreKinds_status (m : List Char) : coreKinds [.status m] = [] := rfl

theorem coreKinds_step (i : Nat) (sv o : Json) : coreKinds [.step i sv o] = [.step] := rfl

theorem summaryRecs_status (m : List Char) : summaryRecs [.status m] = [] := rfl

theorem summaryRecs_step (i : Nat) (sv o : Json) : summaryRecs [.step i sv o] = [] := rfl

theorem stepIndices_pair (m : List Char) (i : Nat) (sv o : Json) :
    stepIndices [.status m, .step i sv o] = [i] := rfl

theorem stepIndices_plan_pair (m : List Char) (p : Option (List Json)) :
    stepIndices [.status m, .plan p] = [] := rfl

theorem coreKinds_plan_pair (m : List Char) (p : Option (List Json)) :
    coreKinds [.status m, .plan p] = [.plan] := rfl

theorem summaryRecs_plan_pair (m : List Char) (p : Option (List Json)) :
    summaryRecs [.status m, .plan p] = [] := rfl

theorem stepIndices_tail (m t : List Char) (c e : Bool) :
    stepIndices [.status m, .summary t c e, .doneMark] = [] := rfl

theorem coreKinds_tail (m t : List Char) (c e : Bool) :
    coreKinds [.status m, .summary t c e, .doneMark] = [.summary] := rfl

theorem summaryRecs_tail (m t : List Char) (c e : Bool) :
    summaryRecs [.status m, .summary t c e, .doneMark] = [(t, c, e)] := rfl

theorem coreKinds_pair (m : List Char) (i : Nat) (sv o : Json) :
    coreKinds [.status m, .step i sv o] = [.step] := rfl

theorem summaryRecs_pair (m : List Char) (i : Nat) (sv o : Json) :
    summaryRecs [.status m, .step i sv o] = [] := rfl

theorem runLoop_no_throw (ctx : LoopCtx) (htex : ∀ m, ∃ r, ctx.toolExec m = .ok r) :
    ∀ fuel st, (runLoop ctx fuel st).isThrew = false := by
  intro fuel
  induction fuel with
  | zero => intro st; rfl
  | succ fuel ih =>
    intro st
    by_cases h1 : st.i < ctx.steps.length
    · by_cases h2 : jsTruthyOpt (getField (execStepParse (ctx.llm st.n)) "tool".toList) = true
      · obtain ⟨raw, hraw⟩ := htex st.t
        obtain ⟨r, hr⟩ := runLoop_tool ctx fuel st raw h1 h2 hraw
        rw [hr]
        exact ih _
      · rw [runLoop_nontool ctx fuel st h1 (by simpa using h2)]
        split
        · rfl
        · exact ih _
    · rw [runLoop_stop ctx fuel st h1]
      rfl

theorem runLoop_calls (ctx : LoopCtx) :
    ∀ fuel st, ∃ k,
      ((runLoop ctx fuel st).st).calls = st.calls ++ List.replicate k (execCall ctx) := by
  intro fuel
  induction fuel with
  | zero => intro st; exact ⟨0, by simp [runLoop_zero, LoopOut.st]⟩
  | succ fuel ih =>
    intro st
    by_cases h1 : st.i < ctx.steps.length
    · by_cases h2 : jsTruthyOpt (getField (execStepParse (ctx.llm st.n)) "tool".toList) = true
      · cases htex0 : ctx.toolExec st.t with
        | error e =>
          rw [runLoop_threw ctx fuel st e h1 h2 htex0]
          exact ⟨1, by simp [LoopOut.st, loopIterState]⟩
        | ok raw =>
          obtain ⟨r, hr⟩ := runLoop_tool ctx fuel st raw h1 h2 htex0
          rw [hr]
          obtain ⟨k, hk⟩ := ih (toolAppend (loopIterState ctx st) (execStepParse (ctx.llm st.n)) r)
          refine ⟨k + 1, ?_⟩
          rw [hk]
          simp [toolAppend, loopIterState, List.replicate_succ, List.append_assoc]
      · rw [runLoop_nontool ctx fuel st h1 (by simpa using h2)]
        split
        · exact ⟨1, by simp [LoopOut.st, stepAppend, loopIterState]⟩
        · obtain ⟨k, hk⟩ := ih _
          refine ⟨k + 1, ?_⟩
          rw [hk]
          simp [stepAppend, loopIterState, List.replicate_succ, List.append_assoc]
    · rw [runLoop_stop ctx fuel st h1]
      exact ⟨0, by simp [LoopOut.st]⟩

theorem runLoop_finished_inv (ctx : LoopCtx)
    (htex : ∀ m, ∃ r, ctx.toolExec m = .ok r) :
    ∀ fuel st st',
      runLoop ctx fuel st = .finished st' →
      st.i = st.stepsLog.length →
      st.i ≤ ctx.steps.length →
      stepIndices st.events = List.range st.i →
      coreKinds st.events = EvKind.plan :: List.replicate st.i EvKind.step →
      summaryRecs st.events = [] →
      st'.stepsLog.length ≤ ctx.steps.length ∧
      st.i ≤ st'.stepsLog.length ∧
      (st.i < ctx.steps.length → st.i < st'.stepsLog.length) ∧
      stepIndices st'.events = List.range st'.stepsLog.length ∧
      coreKinds st'.events = EvKind.plan :: List.replicate st'.stepsLog.length EvKind.step ∧
      summaryRecs st'.events = [] := by
  intro fuel
  induction fuel with
  | zero =>
    intro st st' hrun
    rw [runLoop_zero] at hrun
    cases hrun
  | succ fuel ih =>
    intro st st' hrun hlen hle hsi hck hsr
    by_cases h1 : st.i < ctx.steps.length
    · by_cases h2 : jsTruthyOpt (getField (execStepParse (ctx.llm st.n)) "tool".toList) = true
      · obtain ⟨raw, hraw⟩ := htex st.t
        obtain ⟨r, hr⟩ := runLoop_tool ctx fuel st raw h1 h2 hraw
        rw [hr] at hrun
        have hres := ih _ st' hrun
          (by simpa [toolAppend, loopIterState] using hlen)
          (by simpa [toolAppend, loopIterState] using hle)
          (by simp [toolAppend, loopIterState, stepIndices_append, stepIndices_status, hsi])
          (by simp [toolAppend, loopIterState, coreKinds_append, coreKinds_status, hck])
          (by simp [toolAppend, loopIterState, summaryRecs_append, summaryRecs_status, hsr])
        simpa [toolAppend, loopIterState] using hres
      · rw [runLoop_nontool ctx fuel st h1 (by simpa using h2)] at hrun
        split at hrun
        · injection hrun with hst
          subst hst
          refine ⟨?_, ?_, ?_, ?_, ?_, ?_⟩
          · simp [stepAppend, loopIterState]
            omega
          · simp [stepAppend, loopIterState]
            omega
          · intro _
            simp [stepAppend, loopIterState]
            omega
          · simp [stepAppend, loopIterState, stepIndices_append, stepIndices_status,
                  stepIndices_step, stepIndices_pair, hsi, ← hlen, List.range_succ]
          · simp [stepAppend, loopIterState, coreKinds_append, coreKinds_status,
                  coreKinds_step, coreKinds_pair, hck, ← hlen, List.replicate_succ']
          · simp [stepAppend, loopIterState, summaryRecs_append, summaryRecs_status,
                  summaryRecs_step, summaryRecs_pair, hsr]
        · rename_i hcond
          have hne : ¬ st.i = ctx.steps.length - 1 := by
            intro hcontra
            exact hcond (by simp [hcontra])
          have hres := ih _ st' hrun
            (by simp [stepAppend, loopIterState]; omega)
            (by simp [stepAppend, loopIterState]; omega)
            (by simp [stepAppend, loopIterState, stepIndices_append, stepIndices_status,
                      stepIndices_step, stepIndices_pair, hsi, ← hlen, List.range_succ])
            (by simp [stepAppend, loopIterState, coreKinds_append, coreKinds_status,
                      coreKinds_step, coreKinds_pair, hck, ← hlen, List.replicate_succ'])
            (by simp [stepAppend, loopIterState, summaryRecs_append, summaryRecs_status,
                      summaryRecs_step, summaryRecs_pair, hsr])
          obtain ⟨r1, r2, r3, r4, r5, r6⟩ := hres
          simp only [stepAppend, loopIterState] at r2
          exact ⟨r1, by omega, fun _ => by omega, r4, r5, r6⟩
    · rw [runLoop_stop ctx fuel st h1] at hrun
      injection hrun with hst
      subst hst
      refine ⟨by omega, by omega, fun hc => absurd hc h1, by rwa [← hlen], by rwa [← hlen], hsr⟩

theorem runLoop_tool_eq (ctx : LoopCtx) (fuel : Nat) (st : LoopSt) (r : Json)
    (h1 : st.i < ctx.steps.length)
    (h2 : jsTruthyOpt (getField (execStepParse (ctx.llm st.n)) "tool".toList) = true)
    (hr : runToolModel ctx.toolExec st.t
      ((getField (execStepParse (ctx.llm st.n)) "tool".toList).getD .null) = .ok r) :
    runLoop ctx (fuel + 1) st =
      runLoop ctx fuel
        (toolAppend (loopIterState ctx st) (execStepParse (ctx.llm st.n)) r) := by
  have hr2 : runToolModel ctx.toolExec (loopIterState ctx st).t
      ((getField (execStepParse (ctx.llm st.n)) "tool".toList).getD .null) = .ok r := hr
  simp only [runLoop]
  rw [if_pos h1, if_pos h2, hr2]

theorem runLoop_len_bound (ctx : LoopCtx) :
    ∀ fuel st st', runLoop ctx fuel st = .finished st' →
      st.i = st.stepsLog.length → st.i ≤ ctx.steps.length →
      st'.stepsLog.length ≤ ctx.steps.length := by
  intro fuel
  induction fuel with
  | zero =>
    intro st st' hrun
    rw [runLoop_zero] at hrun
    cases hrun
  | succ fuel ih =>
    intro st st' hrun hlen hle
    by_cases h1 : st.i < ctx.steps.length
    · by_cases h2 : jsTruthyOpt (getField (execStepParse (ctx.llm st.n)) "tool".toList) = true
      · cases htex0 : ctx.toolExec st.t with
        | error e =>
          rw [runLoop_threw ctx fuel st e h1 h2 htex0] at hrun
          cases hrun
        | ok raw =>
          obtain ⟨r, hr⟩ := runToolModel_ok
            ((getField (execStepParse (ctx.llm st.n)) "tool".toList).getD .null) htex0
          rw [runLoop_tool_eq ctx fuel st r h1 h2 hr] at hrun
          exact ih _ st' hrun (by simpa [toolAppend, loopIterState] using hlen)
            (by simpa [toolAppend, loopIterState] using hle)
      · rw [runLoop_nontool ctx fuel st h1 (by simpa using h2)] at hrun
        split at hrun
        · injection hrun with hst
          subst hst
          simp [stepAppend, loopIterState]
          omega
        · exact ih _ st' hrun (by simp [stepAppend, loopIterState]; omega)
            (by simp [stepAppend, loopIterState]; omega)
    · rw [runLoop_stop ctx fuel st h1] at hrun
      injection hrun with hst
      subst hst
      omega

theorem runLoop_hangs (ctx : LoopCtx)
    (htool : ∀ m, jsTruthyOpt (getField (execStepParse (ctx.llm m)) "tool".toList) = true)
    (htex : ∀ m, ∃ r, ctx.toolExec m = .ok r) :
    ∀ fuel st, st.i < ctx.steps.length → ∃ st', runLoop ctx fuel st = .hung st' := by
  intro fuel
  induction fuel with
  | zero => intro st _; exact ⟨st, rfl⟩
  | succ fuel ih =>
    intro st h
    obtain ⟨raw, hraw⟩ := htex st.t
    obtain ⟨r, hr⟩ := runToolModel_ok
      ((getField (execStepParse (ctx.llm st.n)) "tool".toList).getD .null) hraw
    rw [runLoop_tool_eq ctx fuel st r h (htool st.n) hr]
    exact ih _ (by simpa [toolAppend, loopIterState] using h)

theorem runLoop_reaches_finish (ctx : LoopCtx)
    (htex : ∀ m, ∃ r, ctx.toolExec m = .ok r)
    (hnt : ∀ m, ∃ k,
      jsTruthyOpt (getField (execStepParse (ctx.llm (m + k))) "tool".toList) = false) :
    ∀ D st, ctx.steps.length - st.i ≤ D →
      ∃ fuel st', runLoop ctx fuel st = .finished st' := by
  intro D
  induction D with
  | zero =>
    intro st hD
    exact ⟨1, st, runLoop_stop ctx 0 st (by omega)⟩
  | succ D ihD =>
    intro st hD
    by_cases hi : st.i < ctx.steps.length
    · obtain ⟨k, hk⟩ := hnt st.n
      have inner : ∀ k st, st.i < ctx.steps.length → ctx.steps.length - st.i ≤ D + 1 →
          jsTruthyOpt (getField (execStepParse (ctx.llm (st.n + k))) "tool".toList) = false →
          ∃ fuel st', runLoop ctx fuel st = .finished st' := by
        intro k
        induction k with
        | zero =>
          intro st hi2 hD2 hk0
          rw [Nat.add_zero] at hk0
          by_cases hbreak : (jsTruthyOpt (getField (execStepParse (ctx.llm st.n)) "done".toList)
              || decide (st.i = ctx.steps.length - 1)) = true
          · exact ⟨1, stepAppend ctx (loopIterState ctx st) (execStepParse (ctx.llm st.n)),
              by rw [runLoop_nontool ctx 0 st hi2 hk0, if_pos hbreak]⟩
          · have hne : ¬ st.i = ctx.steps.length - 1 := fun hc => hbreak (by simp [hc])
            obtain ⟨fuel0, st', hst'⟩ := ihD
              { stepAppend ctx (loopIterState ctx st) (execStepParse (ctx.llm st.n)) with
                i := st.i + 1 }
              (by simp only [stepAppend, loopIterState]; omega)
            refine ⟨fuel0 + 1, st', ?_⟩
            rw [runLoop_nontool ctx fuel0 st hi2 hk0, if_neg hbreak]
            exact hst'
        | succ k ihk =>
          intro st hi2 hD2 hk1
          by_cases hcur : jsTruthyOpt (getField (execStepParse (ctx.llm st.n)) "tool".toList) = true
          · obtain ⟨raw, hraw⟩ := htex st.t
            obtain ⟨r, hr⟩ := runToolModel_ok
              ((getField (execStepParse (ctx.llm st.n)) "tool".toList).getD .null) hraw
            obtain ⟨fuel0, st', hst'⟩ := ihk
              (toolAppend (loopIterState ctx st) (execStepParse (ctx.llm st.n)) r)
              (by simpa [toolAppend, loopIterState] using hi2)
              (by simpa [toolAppend, loopIterState] using hD2)
              (by
                have harith : st.n + 1 + k = st.n + (k + 1) := by omega
                simpa [toolAppend, loopIterState, harith] using hk1)
            refine ⟨fuel0 + 1, st', ?_⟩
            rw [runLoop_tool_eq ctx fuel0 st r hi2 hcur hr]
            exact hst'
          · have hk0 : jsTruthyOpt (getField (execStepParse (ctx.llm st.n)) "tool".toList) = false := by
              simpa using hcur
            by_cases hbreak : (jsTruthyOpt (getField (execStepParse (ctx.llm st.n)) "done".toList)
                || decide (st.i = ctx.steps.length - 1)) = true
            · exact ⟨1, stepAppend ctx (loopIterState ctx st) (execStepParse (ctx.llm st.n)),
                by rw [runLoop_nontool ctx 0 st hi2 hk0, if_pos hbreak]⟩
            · obtain ⟨fuel0, st', hst'⟩ := ihD
                { stepAppend ctx (loopIterState ctx st) (execStepParse (ctx.llm st.n)) with
                  i := st.i + 1 }
                (by simp only [stepAppend, loopIterState]; omega)
              refine ⟨fuel0 + 1, st', ?_⟩
              rw [runLoop_nontool ctx fuel0 st hi2 hk0, if_neg hbreak]
              exact hst'
      exact inner k st hi hD hk
    · exact ⟨1, st, runLoop_stop ctx 0 st hi⟩

/-! ### Claim C1 -/

/-- C1: the step executor advances the plan index only on a response whose
parsed `tool` property is absent or falsy.  A tool response executes the
tool once (the tool-call counter increases by one), appends exactly one
ToolLogEntry, leaves the StepLogEntry log untouched and re-runs the same
index; a non-tool response appends exactly one StepLogEntry, touches
neither the tool log nor the tool counter, and either stops the loop or
advances to index `i + 1`.  In particular, for the three responses of the
claim at one index (tool, tool, result-only), the loop performs exactly two
tool executions, appends exactly two ToolLogEntry records, one StepLogEntry
record and one `step` event, and advances the index exactly once. -/
theorem C1_step_retry :
    (∀ (ctx : LoopCtx) (fuel : Nat) (st : LoopSt) (raw : List Char),
      st.i < ctx.steps.length →
      jsTruthyOpt (getField (execStepParse (ctx.llm st.n)) "tool".toList) = true →
      ctx.toolExec st.t = .ok raw →
      ∃ st2, runLoop ctx (fuel + 1) st = runLoop ctx fuel st2 ∧
        st2.i = st.i ∧ st2.t = st.t + 1 ∧
        st2.toolsLog.length = st.toolsLog.length + 1 ∧
        st2.stepsLog = st.stepsLog) ∧
    (∀ (ctx : LoopCtx) (fuel : Nat) (st : LoopSt),
      st.i < ctx.steps.length →
      jsTruthyOpt (getField (execStepParse (ctx.llm st.n)) "tool".toList) = false →
      ∃ st2, (runLoop ctx (fuel + 1) st = .finished st2 ∨
          runLoop ctx (fuel + 1) st = runLoop ctx fuel { st2 with i := st.i + 1 }) ∧
        st2.i = st.i ∧ st2.t = st.t ∧ st2.toolsLog = st.toolsLog ∧
        st2.stepsLog.length = st.stepsLog.length + 1) ∧
    ((runLoop c1ctx 3 loopSt0).st.t = 2 ∧
     (runLoop c1ctx 3 loopSt0).st.toolsLog.length = 2 ∧
     (runLoop c1ctx 3 loopSt0).st.stepsLog.length = 1 ∧
     (runLoop c1ctx 3 loopSt0).st.i = 1 ∧
     countKind .step ((runLoop c1ctx 3 loopSt0).st.events) = 1) := by
  refine ⟨?_, ?_, ?_⟩
  · intro ctx fuel st raw h1 h2 h3
    obtain ⟨r, hr⟩ := runToolModel_ok
      ((getField (execStepParse (ctx.llm st.n)) "tool".toList).getD .null) h3
    exact ⟨toolAppend (loopIterState ctx st) (execStepParse (ctx.llm st.n)) r,
      runLoop_tool_eq ctx fuel st r h1 h2 hr,
      by simp [toolAppend, loopIterState],
      by simp [toolAppend, loopIterState],
      by simp [toolAppend, loopIterState],
      by simp [toolAppend, loopIterState]⟩
  · intro ctx fuel st h1 h2
    refine ⟨stepAppend ctx (loopIterState ctx st) (execStepParse (ctx.llm st.n)), ?_,
      by simp [stepAppend, loopIterState],
      by simp [stepAppend, loopIterState],
      by simp [stepAppend, loopIterState],
      by simp [stepAppend, loopIterState]⟩
    rw [runLoop_nontool ctx fuel st h1 h2]
    by_cases hb : (jsTruthyOpt (getField (execStepParse (ctx.llm st.n)) "done".toList)
        || decide (st.i = ctx.steps.length - 1)) = true
    · rw [if_pos hb]
      exact Or.inl rfl
    · rw [if_neg hb]
      exact Or.inr rfl
  · decide

/-- C1 witness: both general parts applied at concrete loop states of the
C1 scenario (a tool response at the initial state, a result-only response
at a state whose next oracle answer is the third response). -/
theorem C1_step_retry_witness :
    (∃ st2, runLoop c1ctx (0 + 1) loopSt0 = runLoop c1ctx 0 st2 ∧
      st2.i = loopSt0.i ∧ st2.t = loopSt0.t + 1 ∧
      st2.toolsLog.length = loopSt0.toolsLog.length + 1 ∧
      st2.stepsLog = loopSt0.stepsLog) ∧
    (∃ st2, (runLoop c1ctx (0 + 1) (⟨0, 2, 2, [], [], [], []⟩ : LoopSt) = .finished st2 ∨
        runLoop c1ctx (0 + 1) (⟨0, 2, 2, [], [], [], []⟩ : LoopSt) =
          runLoop c1ctx 0 { st2 with i := (⟨0, 2, 2, [], [], [], []⟩ : LoopSt).i + 1 }) ∧
      st2.i = (⟨0, 2, 2, [], [], [], []⟩ : LoopSt).i ∧
      st2.t = (⟨0, 2, 2, [], [], [], []⟩ : LoopSt).t ∧
      st2.toolsLog = (⟨0, 2, 2, [], [], [], []⟩ : LoopSt).toolsLog ∧
      st2.stepsLog.length = (⟨0, 2, 2, [], [], [], []⟩ : LoopSt).stepsLog.length + 1) :=
  ⟨C1_step_retry.1 c1ctx 0 loopSt0 "[1,2]".toList (by decide) (by decide) rfl,
   C1_step_retry.2.1 c1ctx 0 ⟨0, 2, 2, [], [], [], []⟩ (by decide) (by decide)⟩

/-! ### Claim C9 -/

/-- C9: the loop has no retry ceiling.  Against tool oracles that never
fail, (a) a step-call oracle that returns a truthy `tool` property on every
call makes the loop run forever (for every amount of fuel it is still
running), and (b) if from every call index the oracle eventually returns a
non-tool response, the loop terminates, with at most `L` step-log appends
for a plan of length `L`. -/
theorem C9_no_retry_ceiling :
    (∀ ctx : LoopCtx,
      (∀ m, jsTruthyOpt (getField (execStepParse (ctx.llm m)) "tool".toList) = true) →
      (∀ m, ∃ r, ctx.toolExec m = .ok r) →
      ∀ st, st.i < ctx.steps.length →
      ∀ fuel, ∃ st', runLoop ctx fuel st = .hung st') ∧
    (∀ ctx : LoopCtx,
      (∀ m, ∃ r, ctx.toolExec m = .ok r) →
      (∀ m, ∃ k,
        jsTruthyOpt (getField (execStepParse (ctx.llm (m + k))) "tool".toList) = false) →
      ∀ st, st.i = st.stepsLog.length → st.i ≤ ctx.steps.length →
      ∃ fuel st', runLoop ctx fuel st = .finished st' ∧
        st'.stepsLog.length ≤ ctx.steps.length) := by
  constructor
  · intro ctx htool htex st hst fuel
    exact runLoop_hangs ctx htool htex fuel st hst
  · intro ctx htex hnt st h1 h2
    obtain ⟨fuel, st', hf⟩ := runLoop_reaches_finish ctx htex hnt ctx.steps.length st (by omega)
    exact ⟨fuel, st', hf, runLoop_len_bound ctx fuel st st' hf h1 h2⟩

/-- C9 witness: the always-tool oracle hangs the loop at fuel 5; the C1
scenario oracle (two tool responses, then result-only responses forever)
terminates within the step bound. -/
theorem C9_no_retry_ceiling_witness :
    (∃ st', runLoop alwaysToolCtx 5 loopSt0 = .hung st') ∧
    (∃ fuel st', runLoop c1ctx fuel loopSt0 = .finished st' ∧
      st'.stepsLog.length ≤ c1ctx.steps.length) := by
  constructor
  · exact C9_no_retry_ceiling.1 alwaysToolCtx
      (fun _ => (by decide :
        jsTruthyOpt (getField (execStepParse toolResp) "tool".toList) = true))
      (fun _ => ⟨"[1,2]".toList, rfl⟩)
      loopSt0 (by decide) 5
  · exact C9_no_retry_ceiling.2 c1ctx
      (fun _ => ⟨"[1,2]".toList, rfl⟩)
      (fun m => ⟨2 - m, by
        have h : ¬ (m + (2 - m) < 2) := by omega
        show jsTruthyOpt (getField (execStepParse
          (if m + (2 - m) < 2 then toolResp else resultResp)) "tool".toList) = false
        rw [if_neg h]
        decide⟩)
      loopSt0 rfl (by decide)

/-! ### Claim C7 -/

/-- C7 (amended): the plan/execute/summarize route forwards the FULL
message history to every model call it makes — every recorded call history
has exactly `M` entries for an `M`-message request (sanitised for the plan
and step calls, raw for the summary call).  The `min(M, 10)` bound
(`MAX_HISTORY = 10`) exists only in the streaming-summary route variant,
whose `prepareHistory` keeps exactly the most recent `min(M, 10)`
messages. -/
theorem C7_history_window_amended :
    (∀ (messages : List Msg) (llm : Nat → List Char)
        (toolExec : Nat → Except (List Char) (List Char)) (fuel : Nat),
      ∀ c ∈ (POSTmodel messages llm toolExec fuel).calls,
        c.history.length = messages.length) ∧
    (∀ ms : List Msg, (prepareHistory ms).length = min ms.length MAX_HISTORY) := by
  constructor
  · intro messages llm toolExec fuel c hc
    unfold POSTmodel at hc
    cases hgp : getPlanParse (llm 0) with
    | direct d =>
      rw [hgp] at hc
      simp only at hc
      split at hc
      · simp only [List.mem_singleton] at hc
        subst hc
        exact cleanMsgs_length messages
      · simp only [List.mem_singleton] at hc
        subst hc
        exact cleanMsgs_length messages
    | steps xs =>
      rw [hgp] at hc
      simp only at hc
      obtain ⟨k, hk⟩ := runLoop_calls ⟨xs, messages, llm, toolExec⟩ fuel
        ⟨0, 1, 0, [], [],
         [.status "Planning…".toList] ++ [.plan (some xs)],
         [⟨.plan, cleanMsgs messages⟩]⟩
      cases hrl : runLoop ⟨xs, messages, llm, toolExec⟩ fuel
          ⟨0, 1, 0, [], [],
           [.status "Planning…".toList] ++ [.plan (some xs)],
           [⟨.plan, cleanMsgs messages⟩]⟩ with
      | finished st =>
        rw [hrl] at hc hk
        simp only [LoopOut.st] at hk
        simp only [hk] at hc
        simp only [execCall, List.mem_append, List.mem_singleton, List.mem_replicate,
          List.mem_cons, List.not_mem_nil, or_false] at hc
        rcases hc with (hc | ⟨-, hc⟩) | hc
        · subst hc; exact cleanMsgs_length messages
        · subst hc; exact cleanMsgs_length messages
        · subst hc; rfl
      | threw e st =>
        rw [hrl] at hc hk
        simp only [LoopOut.st] at hk
        simp only [hk] at hc
        simp only [execCall, List.mem_append, List.mem_singleton, List.mem_replicate,
          List.mem_cons, List.not_mem_nil, or_false] at hc
        rcases hc with hc | ⟨-, hc⟩
        · subst hc; exact cleanMsgs_length messages
        · subst hc; exact cleanMsgs_length messages
      | hung st =>
        rw [hrl] at hc hk
        simp only [LoopOut.st] at hk
        simp only [hk] at hc
        simp only [execCall, List.mem_append, List.mem_singleton, List.mem_replicate,
          List.mem_cons, List.not_mem_nil, or_false] at hc
        rcases hc with hc | ⟨-, hc⟩
        · subst hc; exact cleanMsgs_length messages
        · subst hc; exact cleanMsgs_length messages
  · intro ms
    simp only [prepareHistory, MAX_HISTORY, List.length_map, List.length_drop]
    omega

/-- C7 counterexample: with eleven messages, the single model call of a
direct-answer run receives all eleven history entries, not
`min(11, 10) = 10`. -/
theorem C7_history_window_cex :
    ((POSTmodel elevenMsgs llmProse texOk 1).calls.map fun c => c.history.length) = [11] ∧
    min elevenMsgs.length MAX_HISTORY = 10 := by decide

/-- C7 witness: the amended theorem applied to the eleven-message run and
to `prepareHistory`. -/
theorem C7_history_window_witness :
    (⟨.plan, cleanMsgs elevenMsgs⟩ : Call).history.length = elevenMsgs.length ∧
    (prepareHistory elevenMsgs).length = min elevenMsgs.length MAX_HISTORY :=
  ⟨C7_history_window_amended.1 elevenMsgs llmProse texOk 1 _ (by decide),
   C7_history_window_amended.2 elevenMsgs⟩

/-! ### Claim C8 -/

/-- C8: the hidden-context hyperproperty FAILS on the code.  On a request
whose user message carries a `<!--CONTEXT ... CONTEXT-->` block, the plan
call and both step calls receive the sanitised history, but the summary
model call receives the raw `messages` with the block intact; consequently
two requests that differ only inside hidden blocks do not make identical
model calls. -/
theorem C8_summary_raw_history :
    (POSTmodel ctxMsgs llmNormal texOk 5).calls =
      [⟨.plan, cleanMsgs ctxMsgs⟩, ⟨.exec, cleanMsgs ctxMsgs⟩, ⟨.exec, cleanMsgs ctxMsgs⟩,
       ⟨.summarize, ctxMsgs⟩] ∧
    cleanMsgs ctxMsgs ≠ ctxMsgs ∧
    ((POSTmodel (cleanMsgs ctxMsgs) llmNormal texOk 5).calls.map fun c => c.history) ≠
      ((POSTmodel ctxMsgs llmNormal texOk 5).calls.map fun c => c.history) := by decide

/-! ### Claim C3 -/

/-- C3 (amended): a plan-phase response with no extractable JSON object,
with an unparsable extracted object, or whose parsed object lacks a
non-empty `steps` array, makes `getPlan` return the sanitised trimmed raw
text as a direct answer; and whenever the direct answer is NON-EMPTY the
request completes normally — one `status`, one terminal `summary` carrying
the text with no error flag, the `[DONE]` sentinel, and no plan, step or
tool activity.  (When the sanitised trimmed text is empty the route instead
crashes into the error path, see the counterexample.) -/
theorem C3_plan_direct_amended :
    (∀ resp : List Char, firstObject resp = none →
      getPlanParse resp = .direct (jsTrim (stripContext resp))) ∧
    (∀ resp objStr : List Char, firstObject resp = some objStr → jsonParse objStr = none →
      getPlanParse resp = .direct (jsTrim (stripContext resp))) ∧
    (∀ (resp objStr : List Char) (v : Json), firstObject resp = some objStr →
      jsonParse objStr = some v →
      (∀ xs, getField v "steps".toList = some (.arr xs) → xs = []) →
      getPlanParse resp = .direct (jsTrim (stripContext resp))) ∧
    (∀ (messages : List Msg) (llm : Nat → List Char)
        (toolExec : Nat → Except (List Char) (List Char)) (fuel : Nat) (d : List Char),
      getPlanParse (llm 0) = .direct d → d ≠ [] →
      POSTmodel messages llm toolExec fuel =
        ⟨[.status "Planning…".toList, .summary d true false, .doneMark],
         [⟨.plan, cleanMsgs messages⟩], false⟩) := by
  refine ⟨?_, ?_, ?_, ?_⟩
  · intro resp h
    unfold getPlanParse
    rw [h]
  · intro resp objStr h1 h2
    unfold getPlanParse
    rw [h1]
    show (match jsonParse objStr with
          | some obj =>
            match getField obj "steps".toList with
            | some (Json.arr xs) =>
              if xs.length ≠ 0 then PlanResult.steps xs
              else PlanResult.direct (jsTrim (stripContext resp))
            | _ => PlanResult.direct (jsTrim (stripContext resp))
          | none => PlanResult.direct (jsTrim (stripContext resp))) = _
    rw [h2]
  · intro resp objStr v h1 h2 hsteps
    unfold getPlanParse
    rw [h1]
    show (match jsonParse objStr with
          | some obj =>
            match getField obj "steps".toList with
            | some (Json.arr xs) =>
              if xs.length ≠ 0 then PlanResult.steps xs
              else PlanResult.direct (jsTrim (stripContext resp))
            | _ => PlanResult.direct (jsTrim (stripContext resp))
          | none => PlanResult.direct (jsTrim (stripContext resp))) = _
    rw [h2]
    show (match getField v "steps".toList with
          | some (Json.arr xs) =>
            if xs.length ≠ 0 then PlanResult.steps xs
            else PlanResult.direct (jsTrim (stripContext resp))
          | _ => PlanResult.direct (jsTrim (stripContext resp))) = _
    cases hf : getField v "steps".toList with
    | none => rfl
    | some j =>
      cases j with
      | null => rfl
      | bool b => rfl
      | num raw => rfl
      | str s => rfl
      | obj fs => rfl
      | arr xs =>
        have hx := hsteps xs hf
        subst hx
        simp
  · intro messages llm toolExec fuel d hplan hd
    unfold POSTmodel
    rw [hplan]
    simp only
    rw [if_pos hd]
    rfl

/-- C3 counterexample: a whitespace-only plan response has no extractable
JSON, but the request does NOT complete normally — the direct text trims to
the empty string, which is falsy, so the route falls into the execution
branch with an undefined plan, emits a `plan` event and terminates with an
error summary. -/
theorem C3_plan_direct_cex :
    firstObject "   ".toList = none ∧
    ((summaryRecs (POSTmodel [⟨.user, "hi".toList⟩] llmBlank texOk 1).events).map
      fun r => (r.2.1, r.2.2)) = [(true, true)] ∧
    countKind .plan (POSTmodel [⟨.user, "hi".toList⟩] llmBlank texOk 1).events = 1 := by decide

/-- C3 witness: the amended theorem applied to a prose plan response. -/
theorem C3_plan_direct_witness :
    getPlanParse "no json here".toList =
      .direct (jsTrim (stripContext "no json here".toList)) ∧
    POSTmodel [⟨.user, "hi".toList⟩] llmProse texOk 1 =
      ⟨[.status "Planning…".toList, .summary "no json here".toList true false, .doneMark],
       [⟨.plan, cleanMsgs [⟨.user, "hi".toList⟩]⟩], false⟩ :=
  ⟨C3_plan_direct_amended.1 "no json here".toList rfl,
   C3_plan_direct_amended.2.2.2 [⟨.user, "hi".toList⟩] llmProse texOk 1
     "no json here".toList rfl (by decide)⟩

/-! ### Claim C4 -/

/-- C4 (amended): when the tool subprocess returns non-JSON output, the
adapter converts it into the structured error object
`{error: "Invalid JSON from <tool>", raw: <original text>}` instead of
raising; the value is appended to the tool log, the step loop continues and
the request still ends with a terminal `summary` event carrying no error
flag.  (A tool transport failure — the subprocess raising — is NOT caught
by the adapter and terminates the request with an error summary, see the
counterexample.) -/
theorem C4_tool_error_amended :
    (∀ (toolExec : Nat → Except (List Char) (List Char)) (t : Nat) (tool : Json)
        (raw : List Char),
      toolExec t = .ok raw → jsonParse raw = none →
      runToolModel toolExec t tool =
        .ok (.obj [("error".toList, .str ("Invalid JSON from ".toList ++ jsStringOf tool)),
                   ("raw".toList, .str raw)])) ∧
    ((POSTmodel ctxMsgs llmNormal texNonJson 5).hung = false ∧
     ((summaryRecs (POSTmodel ctxMsgs llmNormal texNonJson 5).events).map
       fun r => (r.2.1, r.2.2)) = [(true, false)] ∧
     countKind .step (POSTmodel ctxMsgs llmNormal texNonJson 5).events = 1) := by
  constructor
  · intro toolExec t tool raw h1 h2
    unfold runToolModel
    rw [h1]
    show (match jsonParse raw with
          | some v => Except.ok v
          | none =>
            Except.ok (Json.obj
              [("error".toList, Json.str ("Invalid JSON from ".toList ++ jsStringOf tool)),
               ("raw".toList, Json.str raw)])) = _
    rw [h2]
  · exact ⟨by decide, by decide, by decide⟩

/-- C4 counterexample: a tool transport failure (the subprocess raising) is
not converted into a structured error object — it aborts the request with
an error summary and no completed step, refuting the claim as stated. -/
theorem C4_tool_error_cex :
    ((summaryRecs (POSTmodel ctxMsgs llmNormal texErr 5).events).map
      fun r => (r.2.1, r.2.2)) = [(true, true)] ∧
    countKind .step (POSTmodel ctxMsgs llmNormal texErr 5).events = 0 := by decide

/-- C4 witness: the adapter part of the amended theorem applied to a
concrete non-JSON tool output. -/
theorem C4_tool_error_witness :
    runToolModel texNonJson 0 (.str "get_courses".toList) =
      .ok (.obj [("error".toList,
                  .str ("Invalid JSON from ".toList ++ jsStringOf (.str "get_courses".toList))),
                 ("raw".toList, .str "oops not json".toList)]) :=
  C4_tool_error_amended.1 texNonJson 0 (.str "get_courses".toList)
    "oops not json".toList rfl rfl

/-! ### Claim C2 -/

theorem getPlanParse_steps_nonempty {resp : List Char} {xs : List Json}
    (h : getPlanParse resp = .steps xs) : xs ≠ [] := by
  unfold getPlanParse at h
  split at h
  · split at h
    · split at h
      · split at h
        · rename_i hcond
          injection h with hxs
          subst hxs
          intro hnil
          subst hnil
          exact hcond rfl
        · exact PlanResult.noConfusion h
      · exact PlanResult.noConfusion h
    · exact PlanResult.noConfusion h
  · exact PlanResult.noConfusion h

/-- C2 (amended): for any error-free, non-hung request whose plan phase
produces a plan of `N` steps, the non-status events are exactly one `plan`,
then `K` `step` events with strictly increasing indices `0..K-1` for some
`1 ≤ K ≤ N` (`K` may fall short of `N` only when the model marks a step
`done` early), then zero `summary_chunk` events, then exactly one `summary`
with `complete_all` and no error flag; after the `summary` only the
`data: [DONE]` sentinel is written. -/
theorem C2_event_ordering_amended :
    ∀ (messages : List Msg) (llm : Nat → List Char)
      (toolExec : Nat → Except (List Char) (List Char)) (fuel : Nat) (xs : List Json),
      getPlanParse (llm 0) = .steps xs →
      (∀ m, ∃ r, toolExec m = .ok r) →
      (POSTmodel messages llm toolExec fuel).hung = false →
      ∃ K txt E, 1 ≤ K ∧ K ≤ xs.length ∧
        coreKinds (POSTmodel messages llm toolExec fuel).events =
          EvKind.plan :: (List.replicate K EvKind.step ++ [EvKind.summary]) ∧
        stepIndices (POSTmodel messages llm toolExec fuel).events = List.range K ∧
        summaryRecs (POSTmodel messages llm toolExec fuel).events = [(txt, true, false)] ∧
        (POSTmodel messages llm toolExec fuel).events =
          E ++ [.summary txt true false, .doneMark] := by
  intro messages llm toolExec fuel xs hplan htex hhung
  have hne : xs ≠ [] := getPlanParse_steps_nonempty hplan
  cases hrl : runLoop ⟨xs, messages, llm, toolExec⟩ fuel
      ⟨0, 1, 0, [], [],
       [.status "Planning…".toList] ++ [.plan (some xs)],
       [⟨.plan, cleanMsgs messages⟩]⟩ with
  | hung st =>
    exfalso
    have hEq : POSTmodel messages llm toolExec fuel = ⟨st.events, st.calls, true⟩ := by
      unfold POSTmodel
      rw [hplan]
      simp only
      rw [hrl]
    rw [hEq] at hhung
    simp at hhung
  | threw e st =>
    exfalso
    have hnt := runLoop_no_throw ⟨xs, messages, llm, toolExec⟩ htex fuel
      ⟨0, 1, 0, [], [],
       [.status "Planning…".toList] ++ [.plan (some xs)],
       [⟨.plan, cleanMsgs messages⟩]⟩
    rw [hrl] at hnt
    simp [LoopOut.isThrew] at hnt
  | finished st =>
    have hEq : POSTmodel messages llm toolExec fuel =
        ⟨st.events ++ [.status "Finalising…".toList,
           .summary (llm st.n ++ nl2 ++ mkHidden st.stepsLog st.toolsLog) true false,
           .doneMark],
         st.calls ++ [⟨.summarize, messages⟩], false⟩ := by
      unfold POSTmodel
      rw [hplan]
      simp only
      rw [hrl]
    rw [hEq]
    have hinv := runLoop_finished_inv ⟨xs, messages, llm, toolExec⟩ htex fuel
      ⟨0, 1, 0, [], [],
       [Event.status "Planning…".toList] ++ [Event.plan (some xs)],
       [⟨Phase.plan, cleanMsgs messages⟩]⟩ st hrl rfl (Nat.zero_le _) rfl rfl rfl
    obtain ⟨r1, -, r3, r4, r5, r6⟩ := hinv
    have hK1 : 0 < st.stepsLog.length := r3 (by
      simp only [List.length_pos]
      exact hne)
    refine ⟨st.stepsLog.length, llm st.n ++ nl2 ++ mkHidden st.stepsLog st.toolsLog,
      st.events ++ [.status "Finalising…".toList], hK1, r1, ?_, ?_, ?_, ?_⟩
    · show coreKinds (st.events ++ [.status "Finalising…".toList,
        .summary (llm st.n ++ nl2 ++ mkHidden st.stepsLog st.toolsLog) true false,
        .doneMark]) = _
      rw [coreKinds_append, r5, coreKinds_tail]
      simp
    · show stepIndices (st.events ++ [.status "Finalising…".toList,
        .summary (llm st.n ++ nl2 ++ mkHidden st.stepsLog st.toolsLog) true false,
        .doneMark]) = _
      rw [stepIndices_append, r4, stepIndices_tail]
      simp
    · show summaryRecs (st.events ++ [.status "Finalising…".toList,
        .summary (llm st.n ++ nl2 ++ mkHidden st.stepsLog st.toolsLog) true false,
        .doneMark]) = _
      rw [summaryRecs_append, r6, summaryRecs_tail]
      simp
    · show st.events ++ [Event.status "Finalising…".toList,
        .summary (llm st.n ++ nl2 ++ mkHidden st.stepsLog st.toolsLog) true false,
        .doneMark] = _
      simp [List.append_assoc]

/-- C2 counterexample: a successful request whose plan has two steps can
emit a single `step` event — the model finishes step 0 with `done: true`
and the loop breaks before ever reaching index 1, refuting the claim that
exactly `N` `step` events with indices `0..N-1` are always emitted. -/
theorem C2_event_ordering_cex :
    planStepCounts (POSTmodel ctxMsgs llmEarlyDone texOk 5).events = [some 2] ∧
    countKind .step (POSTmodel ctxMsgs llmEarlyDone texOk 5).events = 1 ∧
    ((summaryRecs (POSTmodel ctxMsgs llmEarlyDone texOk 5).events).map
      fun r => (r.2.1, r.2.2)) = [(true, false)] := by decide

/-- C2 witness: the amended ordering theorem applied to the concrete
one-step run. -/
theorem C2_event_ordering_witness :
    ∃ K txt E, 1 ≤ K ∧ K ≤ ([Json.str "find courses".toList] : List Json).length ∧
      coreKinds (POSTmodel ctxMsgs llmNormal texOk 5).events =
        EvKind.plan :: (List.replicate K EvKind.step ++ [EvKind.summary]) ∧
      stepIndices (POSTmodel ctxMsgs llmNormal texOk 5).events = List.range K ∧
      summaryRecs (POSTmodel ctxMsgs llmNormal texOk 5).events = [(txt, true, false)] ∧
      (POSTmodel ctxMsgs llmNormal texOk 5).events =
        E ++ [.summary txt true false, .doneMark] :=
  C2_event_ordering_amended ctxMsgs llmNormal texOk 5 [Json.str "find courses".toList]
    rfl (fun _ => ⟨"[1,2]".toList, rfl⟩) rfl

/-! ### Claim C10 -/

theorem findSub_cons_of_hasLead {pat s : List Char} (h : hasLead pat s = true)
    (hne : s ≠ []) : findSub pat s = some 0 := by
  cases s with
  | nil => exact absurd rfl hne
  | cons c cs => rw [findSub, if_pos h]

theorem findSub_exact (b : List Char)
    (hb : ∀ q, q < b.length → hasLead closeMark ((b ++ closeMark).drop q) = false) :
    findSub closeMark (b ++ closeMark) = some b.length := by
  induction b with
  | nil =>
    simp only [List.nil_append, List.length_nil]
    exact findSub_cons_of_hasLead ((hasLead_iff _ _).mpr ⟨[], by simp⟩) (by decide)
  | cons x bs ih =>
    have h0 := hb 0 (by simp)
    simp only [List.drop_zero] at h0
    rw [show (x :: bs) ++ closeMark = x :: (bs ++ closeMark) from rfl] at h0 ⊢
    rw [findSub, if_neg (by simp [h0])]
    rw [ih fun q hq => by
      have := hb (q + 1) (by simpa using Nat.succ_lt_succ hq)
      simpa using this]
    simp

theorem stripGo_nil : ∀ fuel, stripGo fuel [] = [] := by
  intro fuel
  cases fuel <;> rfl

theorem stripGo_openBlock (fuel : Nat) (b : List Char)
    (hb : ∀ q, q < b.length → hasLead closeMark ((b ++ closeMark).drop q) = false) :
    stripGo (fuel + 1) (openMark ++ (b ++ closeMark)) = [] := by
  have hlead : hasLead openMark (openMark ++ (b ++ closeMark)) = true :=
    (hasLead_iff _ _).mpr ⟨b ++ closeMark, rfl⟩
  have hfind : findSub closeMark ((openMark ++ (b ++ closeMark)).drop openMark.length)
      = some b.length := by
    rw [List.drop_left]
    exact findSub_exact b hb
  have hdrop : (openMark ++ (b ++ closeMark)).drop
      (openMark.length + b.length + closeMark.length) = [] := by
    apply List.drop_eq_nil_of_le
    simp only [List.length_append]
    omega
  cases hs : openMark ++ (b ++ closeMark) with
  | nil => exact absurd hs (by simp [openMark])
  | cons c rest =>
    rw [hs] at hlead hfind hdrop
    simp only [stripGo]
    rw [if_pos hlead, hfind]
    show stripGo fuel (List.drop (openMark.length + b.length + closeMark.length) (c :: rest)) = []
    rw [hdrop, stripGo_nil]

theorem stripGo_block : ∀ fuel a b,
    (a ++ (openMark ++ (b ++ closeMark))).length ≤ fuel →
    (∀ p, p < a.length →
      hasLead openMark ((a ++ (openMark ++ (b ++ closeMark))).drop p) = false) →
    (∀ q, q < b.length → hasLead closeMark ((b ++ closeMark).drop q) = false) →
    stripGo fuel (a ++ (openMark ++ (b ++ closeMark))) = a := by
  intro fuel
  induction fuel with
  | zero =>
    intro a b hlen ha hb
    exfalso
    have h1 : (a ++ (openMark ++ (b ++ closeMark))).length =
        a.length + (openMark.length + (b.length + closeMark.length)) := by
      simp
    rw [h1] at hlen
    have h2 : openMark.length = 11 := by decide
    omega
  | succ fuel ih =>
    intro a b hlen ha hb
    cases a with
    | nil =>
      simp only [List.nil_append]
      exact stripGo_openBlock fuel b hb
    | cons c as =>
      have h0 := ha 0 (by simp)
      simp only [List.drop_zero] at h0
      rw [show (c :: as) ++ (openMark ++ (b ++ closeMark)) =
        c :: (as ++ (openMark ++ (b ++ closeMark))) from rfl] at h0 ⊢
      simp only [stripGo]
      rw [if_neg (by simp [h0])]
      congr 1
      apply ih as b
      · simp only [List.length_append, List.length_cons] at hlen ⊢
        omega
      · intro p hp
        have h := ha (p + 1) (by simpa using Nat.succ_lt_succ hp)
        rw [show (c :: as) ++ (openMark ++ (b ++ closeMark)) =
          c :: (as ++ (openMark ++ (b ++ closeMark))) from rfl] at h
        simpa using h
      · exact hb

theorem stripContext_block (a b : List Char)
    (ha : ∀ p, p < a.length →
      hasLead openMark ((a ++ (openMark ++ (b ++ closeMark))).drop p) = false)
    (hb : ∀ q, q < b.length → hasLead closeMark ((b ++ closeMark).drop q) = false) :
    stripContext (a ++ (openMark ++ (b ++ closeMark))) = a :=
  stripGo_block _ a b le_rfl ha hb

theorem normalizeNl_no_cr : ∀ s : List Char, '\r' ∉ s → normalizeNl s = s := by
  intro s
  induction s with
  | nil => intro _; rfl
  | cons c rest ih =>
    intro h
    cases rest with
    | nil => rfl
    | cons d rest2 =>
      rw [normalizeNl]
      rw [if_neg fun hc => h (by simp [hc.1])]
      have h2 : '\r' ∉ (d :: rest2) := fun hm => h (List.mem_cons_of_mem _ hm)
      rw [ih h2]

theorem jsTrim_append_nl2 (x : List Char) : jsTrim (x ++ nl2) = jsTrim x := by
  unfold jsTrim nl2
  rw [List.dropWhile_append]
  by_cases hx : (x.dropWhile isWsChar).isEmpty = true
  · rw [if_pos hx]
    have hx2 : x.dropWhile isWsChar = [] := by
      cases hxx : x.dropWhile isWsChar with
      | nil => rfl
      | cons a as => rw [hxx] at hx; simp at hx
    rw [hx2]
    rfl
  · rw [if_neg hx]
    have : (x.dropWhile isWsChar ++ ['\n', '\n']).reverse =
        '\n' :: '\n' :: (x.dropWhile isWsChar).reverse := by
      simp
    rw [this]
    rw [show List.dropWhile isWsChar ('\n' :: '\n' :: (x.dropWhile isWsChar).reverse) =
      List.dropWhile isWsChar ((x.dropWhile isWsChar).reverse) from by
        rw [List.dropWhile_cons_of_pos (by decide), List.dropWhile_cons_of_pos (by decide)]]

/-- C10: for every error-free completed plan run, the terminal `summary`
event text is the model-produced summary with the hidden block
`<!--CONTEXT\n{stepsLog, toolsLog JSON}\nCONTEXT-->` appended; and the
client chat renderer strips such a block before display: whenever the
visible summary text contains no opening-marker occurrence (including
across the boundary), the serialized payload contains no premature
closing-marker occurrence, and the visible text has no bare CR, rendering
the event text displays exactly the trimmed visible summary. -/
theorem C10_hidden_context_block :
    (∀ (messages : List Msg) (llm : Nat → List Char)
        (toolExec : Nat → Except (List Char) (List Char)) (fuel : Nat) (xs : List Json),
      getPlanParse (llm 0) = .steps xs →
      (∀ m, ∃ r, toolExec m = .ok r) →
      (POSTmodel messages llm toolExec fuel).hung = false →
      ∃ n sLog tLog,
        summaryRecs (POSTmodel messages llm toolExec fuel).events =
          [(llm n ++ nl2 ++ mkHidden sLog tLog, true, false)]) ∧
    (∀ (m : List Char) (sLog : List StepLogEntry) (tLog : List ToolLogEntry),
      (∀ p, p < (m ++ nl2).length →
        hasLead openMark (((m ++ nl2) ++ (openMark ++
          (('\n' :: jsonStringify (logsJson sLog tLog) ++ ['\n']) ++ closeMark))).drop p)
          = false) →
      (∀ q, q < ('\n' :: jsonStringify (logsJson sLog tLog) ++ ['\n']).length →
        hasLead closeMark ((('\n' :: jsonStringify (logsJson sLog tLog) ++ ['\n']) ++
          closeMark).drop q) = false) →
      '\r' ∉ m →
      chatMd (m ++ nl2 ++ mkHidden sLog tLog) = jsTrim m) := by
  constructor
  · intro messages llm toolExec fuel xs hplan htex hhung
    cases hrl : runLoop ⟨xs, messages, llm, toolExec⟩ fuel
        ⟨0, 1, 0, [], [],
         [.status "Planning…".toList] ++ [.plan (some xs)],
         [⟨.plan, cleanMsgs messages⟩]⟩ with
    | hung st =>
      exfalso
      have hEq : POSTmodel messages llm toolExec fuel = ⟨st.events, st.calls, true⟩ := by
        unfold POSTmodel
        rw [hplan]
        simp only
        rw [hrl]
      rw [hEq] at hhung
      simp at hhung
    | threw e st =>
      exfalso
      have hnt := runLoop_no_throw ⟨xs, messages, llm, toolExec⟩ htex fuel
        ⟨0, 1, 0, [], [],
         [.status "Planning…".toList] ++ [.plan (some xs)],
         [⟨.plan, cleanMsgs messages⟩]⟩
      rw [hrl] at hnt
      simp [LoopOut.isThrew] at hnt
    | finished st =>
      have hEq : POSTmodel messages llm toolExec fuel =
          ⟨st.events ++ [.status "Finalising…".toList,
             .summary (llm st.n ++ nl2 ++ mkHidden st.stepsLog st.toolsLog) true false,
             .doneMark],
           st.calls ++ [⟨.summarize, messages⟩], false⟩ := by
        unfold POSTmodel
        rw [hplan]
        simp only
        rw [hrl]
      rw [hEq]
      have hinv := runLoop_finished_inv ⟨xs, messages, llm, toolExec⟩ htex fuel
        ⟨0, 1, 0, [], [],
         [Event.status "Planning…".toList] ++ [Event.plan (some xs)],
         [⟨Phase.plan, cleanMsgs messages⟩]⟩ st hrl rfl (Nat.zero_le _) rfl rfl rfl
      refine ⟨st.n, st.stepsLog, st.toolsLog, ?_⟩
      show summaryRecs (st.events ++ [.status "Finalising…".toList,
        .summary (llm st.n ++ nl2 ++ mkHidden st.stepsLog st.toolsLog) true false,
        .doneMark]) = _
      rw [summaryRecs_append, hinv.2.2.2.2.2, summaryRecs_tail]
      simp
  · intro m sLog tLog ha hb hnr
    have hhid : m ++ nl2 ++ mkHidden sLog tLog =
        (m ++ nl2) ++ (openMark ++
          (('\n' :: jsonStringify (logsJson sLog tLog) ++ ['\n']) ++ closeMark)) := by
      unfold mkHidden
      simp [List.append_assoc]
    unfold chatMd stripCtx
    rw [hhid, stripContext_block (m ++ nl2) _ ha hb]
    have hnr2 : '\r' ∉ m ++ nl2 := by
      intro hmem
      rcases List.mem_append.mp hmem with hmem | hmem
      · exact hnr hmem
      · simp [nl2] at hmem
    rw [normalizeNl_no_cr _ hnr2, jsTrim_append_nl2]

/-- C10 witness: the hidden-block theorem applied to the concrete one-step
run, and the renderer part applied to a concrete summary and log pair. -/
theorem C10_hidden_context_block_witness :
    (∃ n sLog tLog,
      summaryRecs (POSTmodel ctxMsgs llmNormal texOk 5).events =
        [(llmNormal n ++ nl2 ++ mkHidden sLog tLog, true, false)]) ∧
    chatMd ("All done.".toList ++ nl2 ++
      mkHidden [⟨Json.str "a".toList, Json.str "ok".toList⟩] []) =
      jsTrim "All done.".toList :=
  ⟨C10_hidden_context_block.1 ctxMsgs llmNormal texOk 5 [Json.str "find courses".toList]
     rfl (fun _ => ⟨"[1,2]".toList, rfl⟩) rfl,
   C10_hidden_context_block.2 "All done.".toList
     [⟨Json.str "a".toList, Json.str "ok".toList⟩] []
     (by decide) (by decide) (by decide)⟩

end CanvasPal
